import Mathlib

/-!
Verification development for the ai-outline-notes block tree, its markdown
codec and its synchronization engine.

Text is modelled as lists of characters (`Str`), JS strings being sequences
of characters for every operation the code performs (split, trim, slice,
regex matches hand-translated below).  Nondeterministic platform calls are
passed in as parameters: `crypto.randomUUID()` becomes a generator
`gen : Nat -> Str` threaded by call count, `Date.now()` a parameter `now`,
and `new Date(s).getTime()` an abstract `parseDate : Str -> Nat`.

Sources embedded:
* `markdownConverter` (blocksToMarkdown / processBlock / parseBlocks /
  parseFrontmatter / validateMarkdown / markdownToPage / filenameToTitle),
* the block store operations (createBlock-style order computation is not
  needed; moveBlock / indentBlock / outdentBlock / getChildBlocks are),
* `fileOperations` (getPageDirectory / generateFilename),
* `syncEngine` (importPageToDatabase, the per-item loops of
  syncFromFileSystem / syncDatabaseToFiles, detectConflicts).
-/

namespace OutlineNotes

/-- Characters of a JS string. -/
abbrev Str := List Char

/-- The double-quote character (written via its code point to keep string
handling uniform). -/
def quoteD : Char := Char.ofNat 34

/-- The single-quote character. -/
def quoteS : Char := Char.ofNat 39

/-- JS whitespace test for the characters this codec can meet (space, tab,
carriage return, newline). -/
def isWS (c : Char) : Bool := c.isWhitespace

/-- JS `s.trim()`: drop whitespace from both ends. -/
def jsTrim (l : Str) : Str := ((l.dropWhile isWS).reverse.dropWhile isWS).reverse

/-- JS `s.split('\n')`. -/
def splitOnNl : Str → List Str
  | [] => [[]]
  | c :: cs =>
    if c = '\n' then [] :: splitOnNl cs
    else
      match splitOnNl cs with
      | [] => [[c]]
      | l :: ls => (c :: l) :: ls

/-- JS `lines.join('\n')`. -/
def joinNl : List Str → Str
  | [] => []
  | [l] => l
  | l :: ls => l ++ '\n' :: joinNl ls

/-- `' '.repeat n`. -/
def spaces (n : Nat) : Str := List.replicate n ' '

-- ==================== Data model (src/types) ====================

/-- A block record (interface `Block`).  The page `type` union is kept as a
raw string, as at runtime. -/
structure Block where
  id : Str
  content : Str
  parentId : Option Str
  pageId : Str
  order : Nat
  collapsed : Bool
  createdAt : Nat
  updatedAt : Nat
deriving Repr, DecidableEq

/-- A page record (interface `Page`, plus the `isReference` marker the sync
code reads and writes). -/
structure Page where
  id : Str
  title : Str
  ptype : Str
  createdAt : Nat
  updatedAt : Nat
  isReference : Bool
deriving Repr, DecidableEq

/-- `Partial<Page>` as produced by `markdownToPage` and consumed by
`importPageToDatabase`: every field optional. -/
structure PData where
  id : Option Str
  title : Option Str
  ptype : Option Str
  createdAt : Option Nat
  updatedAt : Option Nat
  isReference : Option Bool
deriving Repr, DecidableEq

-- ==================== Serialization: blocksToMarkdown ====================

/-- Stable insertion into a list sorted by `order` (an element is placed
after all earlier elements of equal key, matching JS stable sort). -/
def insertByOrder (b : Block) : List Block → List Block
  | [] => [b]
  | x :: xs => if x.order ≤ b.order then x :: insertByOrder b xs else b :: x :: xs

/-- `.sort((a, b) => a.order - b.order)`: stable sort by `order`. -/
def sortByOrder : List Block → List Block
  | [] => []
  | b :: bs => insertByOrder b (sortByOrder bs)

/-- `blocks.filter(b => b.parentId === block.id).sort(by order)` — the child
list `processBlock` walks. -/
def childrenOf (blocks : List Block) (bid : Str) : List Block :=
  sortByOrder (blocks.filter (fun b => b.parentId = some bid))

/-- `processBlock` of `blocksToMarkdown`, with explicit recursion fuel (the
source recursion descends one tree level per call; any fuel at least the
nesting depth computes the same lines). -/
def processBlock (blocks : List Block) (includeBlockIds : Bool) (indentSize : Nat) :
    Nat → Block → Nat → List Str
  | 0, _, _ => []
  | fuel + 1, block, depth =>
    let indent := spaces (depth * indentSize)
    let blockId : Str := if includeBlockIds then ' ' :: '^' :: block.id else []
    let contentLines := splitOnNl block.content
    let n := contentLines.length
    let selfLines := contentLines.enum.map (fun p =>
      if p.1 = 0 then
        indent ++ ("- ").toList ++ p.2 ++ (if p.1 = n - 1 then blockId else [])
      else if p.1 = n - 1 then
        indent ++ ("  ").toList ++ p.2 ++ blockId
      else
        indent ++ ("  ").toList ++ p.2)
    let childLines :=
      if block.collapsed = false then
        ((childrenOf blocks block.id).map
          (fun c => processBlock blocks includeBlockIds indentSize fuel c (depth + 1))).flatten
      else []
    selfLines ++ childLines

/-- The root list `blocksToMarkdown` starts from. -/
def rootBlocksOf (blocks : List Block) : List Block :=
  sortByOrder (blocks.filter (fun b => b.parentId = none))

/-- `blocksToMarkdown(blocks, includeBlockIds, indentSize)`. -/
def blocksToMarkdown (blocks : List Block) (includeBlockIds : Bool) (indentSize : Nat) : Str :=
  joinNl (((rootBlocksOf blocks).map
    (fun b => processBlock blocks includeBlockIds indentSize (blocks.length + 1) b 0)).flatten)

-- ==================== Deserialization: parseBlocks ====================

/-- `[a-zA-Z0-9-]` of the block-id marker regex. -/
def isIdChar (c : Char) : Bool := c.isAlphanum || c = '-'

/-- The match `/^(\s*)- (.*)$/`: a whitespace prefix, then the list marker,
then the rest of the line.  Returns (indent width, rest). -/
def lineMarker (line : Str) : Option (Nat × Str) :=
  let ws := line.takeWhile isWS
  match line.drop ws.length with
  | '-' :: ' ' :: rest => some (ws.length, rest)
  | _ => none

/-- The match `/\s*\^([a-zA-Z0-9-]+)\s*$/` applied to trimmed block content,
returning (clean content, block id); the clean side is the slice before the
match, trimmed, as in `flushCurrentBlock`. -/
def splitTrailingId (s : Str) : Option (Str × Str) :=
  let r := s.reverse
  let tok := r.takeWhile isIdChar
  if tok = [] then none
  else
    match r.drop tok.length with
    | '^' :: rest => some (jsTrim rest.reverse, tok.reverse)
    | _ => none

/-- Parser state of `parseBlocks`: finished blocks, the ancestor stack of
(block, depth), the accumulated lines of the block in progress, its depth,
and the count of `crypto.randomUUID()` calls made so far. -/
structure PState where
  blocks : List Block
  stack : List (Block × Nat)
  curLines : List Str
  curDepth : Nat
  ctr : Nat
deriving Repr

/-- The backward scan of `flushCurrentBlock`: nearest stack entry (from the
top) with depth strictly below the current depth. -/
def findParent (stack : List (Block × Nat)) (depth : Nat) : Option Str :=
  match stack.find? (fun e => e.2 < depth) with
  | some e => some e.1.id
  | none => none

/-- `flushCurrentBlock`: close the block in progress, compute its parent and
order, append it and update the stack.  An empty accumulation, or content
that trims to nothing, leaves the state as it was (the source returns
without resetting). -/
def flushCurrentBlock (pageId : Str) (gen : Nat → Str) (now : Nat) (st : PState) : PState :=
  if st.curLines = [] then st
  else
    let blockContent := jsTrim (joinNl st.curLines)
    if blockContent = [] then st
    else
      let ext := splitTrailingId blockContent
      let cleanContent := match ext with
        | some e => e.1
        | none => blockContent
      let blockId := match ext with
        | some e => e.2
        | none => gen st.ctr
      let ctr := match ext with
        | some _ => st.ctr
        | none => st.ctr + 1
      let parentId := findParent st.stack st.curDepth
      let order := (st.blocks.filter (fun b => b.parentId = parentId)).length
      let block : Block :=
        ⟨blockId, cleanContent, parentId, pageId, order, false, now, now⟩
      { blocks := st.blocks ++ [block]
        stack := (block, st.curDepth) :: st.stack.dropWhile (fun e => st.curDepth ≤ e.2)
        curLines := []
        curDepth := st.curDepth
        ctr := ctr }

/-- One line of the `parseBlocks` loop: blank lines are skipped, a list
marker closes the previous block and opens a new one at depth
`floor(indent / 2)`, anything else is a continuation line. -/
def parseLine (pageId : Str) (gen : Nat → Str) (now : Nat) (st : PState) (line : Str) : PState :=
  if jsTrim line = [] then st
  else
    match lineMarker line with
    | some m =>
      let st' := flushCurrentBlock pageId gen now st
      { st' with curDepth := m.1 / 2, curLines := [m.2] }
    | none => { st with curLines := st.curLines ++ [jsTrim line] }

/-- `parseBlocks(content, pageId)`. -/
def parseBlocks (content : Str) (pageId : Str) (gen : Nat → Str) (now : Nat) : List Block :=
  let st0 : PState := ⟨[], [], [], 0, 0⟩
  let st := (splitOnNl content).foldl (parseLine pageId gen now) st0
  (flushCurrentBlock pageId gen now st).blocks

-- ==================== Frontmatter ====================

/-- `.replace(/^["']|["']$/g, '')`: strip one leading and one trailing
quote. -/
def stripQuotes (v : Str) : Str :=
  let v1 := match v with
    | c :: cs => if c = quoteD ∨ c = quoteS then cs else v
    | [] => []
  match v1.getLast? with
  | some c => if c = quoteD ∨ c = quoteS then v1.dropLast else v1
  | none => v1

/-- Object-property assignment `frontmatter[key] = value` (later lines
overwrite earlier ones). -/
def fmInsert (m : List (Str × Str)) (k v : Str) : List (Str × Str) :=
  match m with
  | [] => [(k, v)]
  | e :: rest => if e.1 = k then (k, v) :: rest else e :: fmInsert rest k v

/-- Property read `frontmatter[key]`. -/
def fmGet (m : List (Str × Str)) (k : Str) : Option Str :=
  (m.find? (fun e => e.1 = k)).map (fun e => e.2)

/-- One frontmatter line: split at the first colon when its index is
positive, trim the key, trim and unquote the value. -/
def parseFmLine (m : List (Str × Str)) (line : Str) : List (Str × Str) :=
  match line.findIdx? (fun c => c = ':') with
  | some i =>
    if 0 < i then
      fmInsert m (jsTrim (line.take i)) (stripQuotes (jsTrim (line.drop (i + 1))))
    else m
  | none => m

/-- The match `/^---\n([\s\S]*?)\n---\n/`: the content must start with a
line that is exactly `---`, and the lazy body runs to the first later line
that is exactly `---` and is itself followed by a newline.  Returns the
parsed key/value map and the body after the closing marker. -/
def parseFrontmatter (content : Str) : List (Str × Str) × Str :=
  let lines := splitOnNl content
  if lines.headI = ("---").toList then
    match (lines.drop 2).findIdx? (fun l => l = ("---").toList) with
    | some j =>
      let k := j + 2
      if k + 1 < lines.length then
        let fmLines := (lines.drop 1).take (k - 1)
        (fmLines.foldl parseFmLine [], joinNl (lines.drop (k + 1)))
      else ([], content)
    | none => ([], content)
  else ([], content)

/-- `validateMarkdown(content)`: an error for a missing frontmatter start,
an error for a missing (or empty, hence falsy) `id` value. -/
def validateMarkdown (content : Str) : Bool × List Str :=
  let errors1 : List Str :=
    if content.take 3 = ("---").toList then [] else [("缺少 YAML frontmatter").toList]
  let fm := (parseFrontmatter content).1
  let idOk : Bool := match fmGet fm (("id").toList) with
    | some v => v ≠ []
    | none => false
  let errors := errors1 ++ (if idOk then [] else [("frontmatter 缺少 id 字段").toList])
  (errors = [], errors)

/-- `filenameToTitle`: drop a trailing `.md`, then turn every dash into a
space. -/
def filenameToTitle (filename : Str) : Str :=
  let base := if filename.reverse.take 3 = ("dm.").toList then filename.take (filename.length - 3)
    else filename
  base.map (fun c => if c = '-' then ' ' else c)

/-- `markdownToPage(content, filename)`.  `genPage` stands for the
`crypto.randomUUID()` call for a missing page id, `gen` for the calls made
inside `parseBlocks`, `parseDate` for `new Date(string).getTime()`. -/
def markdownToPage (content : Str) (filename : Str) (genPage : Str) (gen : Nat → Str)
    (parseDate : Str → Nat) (now : Nat) : Page × List Block :=
  let pf := parseFrontmatter content
  let fm := pf.1
  let body := pf.2
  let idVal := fmGet fm (("id").toList)
  let pageId := match idVal with
    | some v => if v = [] then genPage else v
    | none => genPage
  let title := match fmGet fm (("title").toList) with
    | some v => if v = [] then filenameToTitle filename else v
    | none => filenameToTitle filename
  let ptype := match fmGet fm (("type").toList) with
    | some v => if v = [] then ("note").toList else v
    | none => ("note").toList
  let createdAt := match fmGet fm (("created").toList) with
    | some v => if v = [] then now else parseDate v
    | none => now
  let updatedAt := match fmGet fm (("updated").toList) with
    | some v => if v = [] then now else parseDate v
    | none => now
  let page : Page := ⟨pageId, title, ptype, createdAt, updatedAt, false⟩
  (page, parseBlocks body pageId gen now)

-- ==================== Block store operations ====================

/-- Dexie `db.blocks.update(id, changes)`: rewrite the record with that
primary key. -/
def dbUpdate (st : List Block) (bid : Str) (f : Block → Block) : List Block :=
  st.map (fun b => if b.id = bid then f b else b)

/-- `moveBlock(blockId, newParentId, newOrder)`: one unconditional record
update — the source has no cycle guard and no validation. -/
def moveBlock (st : List Block) (blockId : Str) (newParentId : Option Str)
    (newOrder : Nat) (now : Nat) : List Block :=
  dbUpdate st blockId (fun b =>
    { b with parentId := newParentId, order := newOrder, updatedAt := now })

/-- `getChildBlocks(parentId)`: all blocks with that parent, sorted by
order. -/
def getChildBlocks (st : List Block) (parentId : Str) : List Block :=
  sortByOrder (st.filter (fun b => b.parentId = some parentId))

/-- `indentBlock(blockId)`: adopt the block as the last child of its
previous sibling; a first (or missing) sibling fails. -/
def indentBlock (st : List Block) (blockId : Str) (now : Nat) : List Block × Bool :=
  match st.find? (fun b => b.id = blockId) with
  | none => (st, false)
  | some block =>
    let allBlocks := st.filter (fun b => b.pageId = block.pageId)
    let siblings := sortByOrder (allBlocks.filter (fun b => b.parentId = block.parentId))
    match siblings.findIdx? (fun b => b.id = blockId) with
    | none => (st, false)
    | some currentIndex =>
      if currentIndex = 0 then (st, false)
      else
        match siblings.get? (currentIndex - 1) with
        | none => (st, false)
        | some previousSibling =>
          let newOrder := (getChildBlocks st previousSibling.id).length
          (moveBlock st blockId (some previousSibling.id) newOrder now, true)

/-- `outdentBlock(blockId)`: promote the block next to its parent, shifting
the parent's later siblings one order up (each update writes the snapshot
order plus one, as the source reads `parentSiblings[i].order`). -/
def outdentBlock (st : List Block) (blockId : Str) (now : Nat) : List Block × Bool :=
  match st.find? (fun b => b.id = blockId) with
  | none => (st, false)
  | some block =>
    match block.parentId with
    | none => (st, false)
    | some pid =>
      match st.find? (fun b => b.id = pid) with
      | none => (st, false)
      | some parent =>
        let allBlocks := st.filter (fun b => b.pageId = block.pageId)
        let parentSiblings := sortByOrder (allBlocks.filter (fun b => b.parentId = parent.parentId))
        let later := match parentSiblings.findIdx? (fun b => b.id = parent.id) with
          | some i => parentSiblings.drop (i + 1)
          | none => parentSiblings
        let newOrder := parent.order + 1
        let st1 := later.foldl
          (fun s sib => dbUpdate s sib.id (fun b => { b with order := sib.order + 1 })) st
        (moveBlock st1 blockId parent.parentId newOrder now, true)

/-- One step up the `parentId` chain from a block id. -/
def parentStep (st : List Block) (i : Str) : Option Str :=
  (st.find? (fun b => b.id = i)).bind (fun b => b.parentId)

/-- Iterated parent walk: `some` while a link remains, `none` once a root
(or a dangling id) is reached. -/
def ancestorIter (st : List Block) (i : Str) : Nat → Option Str
  | 0 => some i
  | n + 1 => (ancestorIter st i n).bind (parentStep st)

-- ==================== fileOperations helpers ====================

/-- `getPageDirectory(page)`. -/
def getPageDirectory (p : Page) : Str :=
  if p.ptype = ("daily").toList then ("journals").toList else ("pages").toList

/-- Characters removed by `generateFilename`'s forbidden-character class. -/
def isForbiddenFilenameChar (c : Char) : Bool :=
  c = '/' || c = '\\' || c = ':' || c = '*' || c = '?' || c = quoteD || c = '<' || c = '>' || c = '|'

/-- `.replace(/\s+/g, '-')`: each maximal whitespace run becomes one dash.
The flag records whether the previous character was inside a run. -/
def collapseWsAux : Bool → Str → Str
  | _, [] => []
  | inRun, c :: cs =>
    if isWS c then
      if inRun then collapseWsAux true cs else '-' :: collapseWsAux true cs
    else c :: collapseWsAux false cs

/-- `generateFilename(page)`. -/
def generateFilename (p : Page) : Str :=
  if p.ptype = ("daily").toList then p.title ++ ("dm.").toList.reverse
  else
    jsTrim (collapseWsAux false (p.title.filter (fun c => !isForbiddenFilenameChar c)))
      ++ ("dm.").toList.reverse

-- ==================== Sync engine ====================

/-- The database the sync engine mutates: the pages and blocks tables. -/
structure Store where
  pages : List Page
  blocks : List Block
deriving Repr, DecidableEq

/-- JS `a || b` on an optional string (undefined and the empty string are
falsy). -/
def jsOrStr (v : Option Str) (d : Str) : Str :=
  match v with
  | none => d
  | some s => if s = [] then d else s

/-- JS `a || b` on an optional number (undefined and 0 are falsy). -/
def jsOrNat (v : Option Nat) (d : Nat) : Nat :=
  match v with
  | none => d
  | some n => if n = 0 then d else n

/-- `importPageToDatabase(pageData, blocks)`: skip without an id; update or
create the page record; then delete every block of that page and bulk-add
the parsed ones. -/
def importPageToDatabase (s : Store) (pageData : PData) (bs : List Block) (now : Nat) : Store :=
  match pageData.id with
  | none => s
  | some pid =>
    if pid = [] then s
    else
      let pages' := match s.pages.find? (fun p => p.id = pid) with
        | some ex =>
          s.pages.map (fun p =>
            if p.id = pid then
              { p with title := jsOrStr pageData.title ex.title
                       ptype := jsOrStr pageData.ptype ex.ptype
                       updatedAt := jsOrNat pageData.updatedAt now }
            else p)
        | none =>
          s.pages ++ [{ id := pid
                        title := jsOrStr pageData.title (("未命名").toList)
                        ptype := jsOrStr pageData.ptype (("note").toList)
                        isReference := (pageData.isReference).getD false
                        createdAt := jsOrNat pageData.createdAt now
                        updatedAt := jsOrNat pageData.updatedAt now }]
      let blocks' := s.blocks.filter (fun b => b.pageId ≠ pid) ++ bs
      ⟨pages', blocks'⟩

/-- The import loop of `syncFromFileSystem` (lines 111-123): each item is
attempted inside its own try/catch, a failure is logged and the loop
continues.  `imp` is the item action (importPageToDatabase, which can throw
on a storage failure); the result is the final store, the success count and
the list of attempted items in order. -/
def runIsolated (imp : Store → α → Except ε Store) : Store → List α → Store × Nat × List α
  | s, [] => (s, 0, [])
  | s, a :: as =>
    match imp s a with
    | Except.ok s' =>
      let r := runIsolated imp s' as
      (r.1, r.2.1 + 1, a :: r.2.2)
    | Except.error _ =>
      let r := runIsolated imp s as
      (r.1, r.2.1, a :: r.2.2)

/-- The export loop of `syncDatabaseToFiles` (lines 170-187): the page
exports run sequentially with no per-page catch, so the first failure
propagates out of the loop (and `fullSync` re-throws it).  Returns the
outcome and the list of pages actually attempted. -/
def runAborting (exp : Page → Except ε Unit) : List Page → Except ε Unit × List Page
  | [] => (Except.ok (), [])
  | p :: ps =>
    match exp p with
    | Except.ok _ =>
      let r := runAborting exp ps
      (r.1, p :: r.2)
    | Except.error e => (Except.error e, [p])

/-- `syncFromFileSystem` over already-read items. -/
def syncFromFileSystemModel (imp : Store → PData × List Block → Except ε Store)
    (s : Store) (allData : List (PData × List Block)) : Store × Nat × List (PData × List Block) :=
  runIsolated imp s allData

/-- `syncDatabaseToFiles`. -/
def syncDatabaseToFilesModel (exp : Page → Except ε Unit) (pages : List Page) :
    Except ε Unit × List Page :=
  runAborting exp pages

/-- `fullSync`: import phase, then export phase over the resulting store's
pages; an export failure is re-thrown.  Returns the outcome with the final
store and both attempt traces. -/
def fullSyncModel (imp : Store → PData × List Block → Except ε Store)
    (exp : Page → Except ε Unit) (s : Store) (allData : List (PData × List Block)) :
    Except ε Store × List (PData × List Block) × List Page :=
  let ri := syncFromFileSystemModel imp s allData
  let re := syncDatabaseToFilesModel exp ri.1.pages
  match re.1 with
  | Except.ok _ => (Except.ok ri.1, ri.2.2, re.2)
  | Except.error e => (Except.error e, ri.2.2, re.2)

/-- Environment of `detectConflicts`: whether the vault handle is set, the
pages table, which directory handles resolve, and for each directory/file
name the last-modified time when the file handle resolves
(`getFileModifiedTime` itself returns 0 on an internal failure, which is a
value of this map, not a separate case). -/
structure ConflictEnv where
  vaultInitialized : Bool
  pages : List Page
  dirOk : Str → Bool
  fileTime : Str → Str → Option Nat

/-- `detectConflicts(pageId)`. -/
def detectConflicts (env : ConflictEnv) (pageId : Str) : Bool :=
  if env.vaultInitialized = false then false
  else
    match env.pages.find? (fun p => p.id = pageId) with
    | none => false
    | some page =>
      let dirName := getPageDirectory page
      if env.dirOk dirName = false then false
      else
        let filename := generateFilename page
        match env.fileTime dirName filename with
        | none => false
        | some t => decide (page.updatedAt < t)

-- ==================== Concrete fixtures ====================

/-- A root block that is collapsed and has one child (`blkB`). -/
def blkA : Block := ⟨("a").toList, ("hello").toList, none, ("P").toList, 0, true, 5, 5⟩

/-- The child of `blkA`. -/
def blkB : Block := ⟨("b").toList, ("world").toList, some ("a").toList, ("P").toList, 0, false, 5, 5⟩

/-- A fixed id generator for counterexamples (the parser only calls it for
blocks without an id marker). -/
def genU : Nat → Str := fun _ => ("u").toList

/-- Three sibling top-level blocks A, B, C of document D at orders 0, 1, 2 —
the C6 scenario. -/
def scA : Block := ⟨("A").toList, ("A").toList, none, ("D").toList, 0, false, 0, 0⟩

/-- Scenario block B. -/
def scB : Block := ⟨("B").toList, ("B").toList, none, ("D").toList, 1, false, 0, 0⟩

/-- Scenario block C. -/
def scC : Block := ⟨("C").toList, ("C").toList, none, ("D").toList, 2, false, 0, 0⟩

/-- C7 start state: top level A (order 0) and X (order 1); A has children
B, C, D at orders 0, 1, 2.  All orders are distinct per parent. -/
def c7Store : List Block :=
  [⟨("A").toList, ("A").toList, none, ("P").toList, 0, false, 0, 0⟩,
   ⟨("X").toList, ("X").toList, none, ("P").toList, 1, false, 0, 0⟩,
   ⟨("B").toList, ("B").toList, some ("A").toList, ("P").toList, 0, false, 0, 0⟩,
   ⟨("C").toList, ("C").toList, some ("A").toList, ("P").toList, 1, false, 0, 0⟩,
   ⟨("D").toList, ("D").toList, some ("A").toList, ("P").toList, 2, false, 0, 0⟩]

/-- Parser input whose indentation jumps from depth 0 (no indent) to depth 3
(six spaces), then back to depth 2 (four spaces). -/
def c4Input : Str := ("- a ^a\n      - b ^b\n    - c ^c").toList

-- ==================== C3 ====================

/-- The store reached by `moveBlock("a", "b", 0)` on `[blkA, blkB]`: the
source updates the record unconditionally, although `b` is a descendant of
`a`. -/
def c3Moved : List Block := moveBlock [blkA, blkB] (("a").toList) (some (("b").toList)) 0 7

theorem c3_walk_alternates (n : Nat) :
    ancestorIter c3Moved ['a'] n = some ['a'] ∨
    ancestorIter c3Moved ['a'] n = some ['b'] := by
  induction n with
  | zero => left; rfl
  | succ n ih =>
    have hstep : ancestorIter c3Moved ['a'] (n + 1)
        = (ancestorIter c3Moved ['a'] n).bind (parentStep c3Moved) := rfl
    rcases ih with h | h
    · right; rw [hstep, h]; decide
    · left; rw [hstep, h]; decide

/-- Claim C3: `moveBlock(id, newParentId, newOrder)` is claimed to reject
every move where `newParentId` is `id` or one of its descendants, leaving
the store unchanged, so that the parent walk from any block always reaches a
root.  The code has no such guard: moving block `a` under its own child `b`
changes the store, after which the `parentId` walk from `a` alternates
between `a` and `b` for ever and never reaches a root. -/
theorem c3_no_cycle_guard :
    c3Moved ≠ [blkA, blkB] ∧
    (∀ n : Nat, (ancestorIter c3Moved ['a'] n).isSome = true) := by
  refine ⟨by decide, fun n => ?_⟩
  rcases c3_walk_alternates n with h | h <;> rw [h] <;> rfl

-- ==================== C6 ====================

/-- The C6 store after `indentBlock("B")`. -/
def c6AfterIndent : List Block := (indentBlock [scA, scB, scC] (("B").toList) 1).1

/-- The C6 store after `indentBlock("B")` then `outdentBlock("B")`. -/
def c6AfterOutdent : List Block := (outdentBlock c6AfterIndent (("B").toList) 2).1

/-- Claim C6 (counterexample): the claim asserts that after
`indent("B")` then `outdent("B")` block B ends at order 2; the code computes
`newOrder = parent.order + 1 = 0 + 1 = 1`, so B ends at order 1. -/
theorem c6_outdent_order_counterexample :
    ((c6AfterOutdent.find? (fun b => b.id = ("B").toList)).map (fun b => b.order)) = some 1 ∧
    ((c6AfterOutdent.find? (fun b => b.id = ("B").toList)).map (fun b => b.order)) ≠ some 2 := by
  constructor <;> decide

/-- Claim C6 (amended): `indent("B")` makes B a child of A at order 0 and
leaves C top-level at order 2; the following `outdent("B")` returns B to the
top level at order 1 (A's order 0 plus one) and renumbers C to order 3. -/
theorem c6_indent_outdent_scenario :
    c6AfterIndent.map (fun b => (b.id, b.parentId, b.order)) =
      [(("A").toList, none, 0), (("B").toList, some (("A").toList), 0),
       (("C").toList, none, 2)] ∧
    c6AfterOutdent.map (fun b => (b.id, b.parentId, b.order)) =
      [(("A").toList, none, 0), (("B").toList, none, 1), (("C").toList, none, 3)] := by
  constructor <;> decide

-- ==================== C7 ====================

/-- The C7 store after `outdentBlock("C")` then `indentBlock("C")`. -/
def c7After : List Block :=
  (indentBlock (outdentBlock c7Store (("C").toList) 1).1 (("C").toList) 2).1

/-- Claim C7: order uniqueness per parent is claimed to be preserved by any
sequence of indent/outdent/move operations.  From a store whose sibling
orders are all distinct, `outdent("C")` (which leaves a gap among A's
children) followed by `indent("C")` (which computes the new order as the
child count) gives A the children B, D, C at orders 0, 2, 2 — a duplicate.
-/
theorem c7_duplicate_order_after_outdent_indent :
    ((c7After.filter (fun b => b.parentId = some (("A").toList))).map (fun b => b.order)) =
      [0, 2, 2] ∧
    ¬ ((c7After.filter (fun b => b.parentId = some (("A").toList))).map
        (fun b => b.order)).Nodup := by
  constructor <;> decide

-- ==================== C5 ====================

/-- Two pages for the export-abort counterexample. -/
def pg1 : Page := ⟨("p1").toList, ("p1").toList, ("note").toList, 0, 0, false⟩

/-- Second page of the export-abort counterexample. -/
def pg2 : Page := ⟨("p2").toList, ("p2").toList, ("note").toList, 0, 0, false⟩

/-- An exporter that fails exactly on `pg1`. -/
def expFail1 : Page → Except Unit Unit :=
  fun p => if p.id = ("p1").toList then Except.error () else Except.ok ()

/-- Claim C5 (counterexample): with two pages in the store and an exporter
failing on the first, `fullSync`'s export phase attempts only the first page
— the loop in `syncDatabaseToFiles` has no per-page catch, so the failure
aborts the remaining export batch, contradicting the claim that every
remaining document is attempted. -/
theorem c5_export_abort_counterexample :
    (fullSyncModel (fun s _ => Except.ok s) expFail1 ⟨[pg1, pg2], []⟩ []).2.2 = [pg1] ∧
    [pg1] ≠ [pg1, pg2] := by
  constructor <;> decide

theorem c5_runAborting_all_ok (exp : Page → Except ε Unit) (pages : List Page)
    (h : ∀ p ∈ pages, exp p = Except.ok ()) : (runAborting exp pages).2 = pages := by
  induction pages with
  | nil => rfl
  | cons p ps ih =>
    have hp := h p (List.mem_cons_self p ps)
    simp only [runAborting, hp]
    rw [ih (fun q hq => h q (List.mem_cons_of_mem p hq))]

theorem c5_runIsolated_all (imp : Store → α → Except ε Store) (s : Store) (items : List α) :
    (runIsolated imp s items).2.2 = items := by
  induction items generalizing s with
  | nil => rfl
  | cons a as ih =>
    simp only [runIsolated]
    cases imp s a with
    | ok s' => simpa using ih s'
    | error e => simpa using ih s

/-- Claim C5 (amended): the import phase of `fullSync` isolates per-resource
failures — every item of the batch is attempted no matter which imports
fail — but the export phase only attempts every document when no export
fails; its first failure aborts the remaining batch (see the
counterexample). -/
theorem c5_import_isolated_export_conditional (imp : Store → PData × List Block → Except ε Store)
    (s : Store) (items : List (PData × List Block)) (exp : Page → Except ε Unit)
    (pages : List Page) (h : ∀ p ∈ pages, exp p = Except.ok ()) :
    (syncFromFileSystemModel imp s items).2.2 = items ∧
    (syncDatabaseToFilesModel exp pages).2 = pages :=
  ⟨c5_runIsolated_all imp s items, c5_runAborting_all_ok exp pages h⟩

/-- Witness for C5's amended theorem at a concrete store, item list and an
exporter that always succeeds. -/
theorem c5_witness :
    (syncFromFileSystemModel (fun s (_ : PData × List Block) => (Except.ok s : Except Unit Store))
        ⟨[pg1], []⟩ [(⟨some (("p1").toList), none, none, none, none, none⟩, [])]).2.2 =
      [(⟨some (("p1").toList), none, none, none, none, none⟩, [])] ∧
    (syncDatabaseToFilesModel (fun _ => (Except.ok () : Except Unit Unit)) [pg1, pg2]).2 =
      [pg1, pg2] :=
  c5_import_isolated_export_conditional _ ⟨[pg1], []⟩
    [(⟨some (("p1").toList), none, none, none, none, none⟩, [])] _ [pg1, pg2] (fun _ _ => rfl)

-- ==================== C8 ====================

theorem c8_import_replaces_and_is_idempotent (s : Store) (pageData : PData)
    (bs : List Block) (now1 now2 : Nat) (pid : Str) (hid : pageData.id = some pid)
    (hpid : pid ≠ []) (hbs : ∀ b ∈ bs, b.pageId = pid) :
    (importPageToDatabase (importPageToDatabase s pageData bs now1) pageData bs now2).blocks
      = (importPageToDatabase s pageData bs now1).blocks ∧
    (importPageToDatabase s pageData bs now1).blocks.filter (fun b => b.pageId = pid) = bs := by
  have hfilter : ∀ l : List Block,
      (l.filter (fun b => b.pageId ≠ pid) ++ bs).filter (fun b => b.pageId ≠ pid)
        = l.filter (fun b => b.pageId ≠ pid) := by
    intro l
    rw [List.filter_append, List.filter_filter]
    have h1 : bs.filter (fun b => b.pageId ≠ pid) = [] := by
      rw [List.filter_eq_nil_iff]
      intro b hb
      simp [hbs b hb]
    have h2 : ∀ b : Block, (decide (b.pageId ≠ pid) && decide (b.pageId ≠ pid)) =
        decide (b.pageId ≠ pid) := by
      intro b; cases decide (b.pageId ≠ pid) <;> rfl
    rw [h1, List.append_nil]
    exact List.filter_congr (fun b _ => h2 b)
  constructor
  · simp only [importPageToDatabase, hid, if_neg hpid]
    exact congrArg (fun l => l ++ bs) (hfilter s.blocks)
  · simp only [importPageToDatabase, hid, if_neg hpid]
    rw [List.filter_append, List.filter_filter]
    have h1 : s.blocks.filter (fun b => decide (b.pageId = pid) && decide (b.pageId ≠ pid)) =
        [] := by
      rw [List.filter_eq_nil_iff]
      intro b _
      by_cases h : b.pageId = pid <;> simp [h]
    have h2 : bs.filter (fun b => b.pageId = pid) = bs :=
      List.filter_eq_self.mpr (fun b hb => by simp [hbs b hb])
    rw [h1, h2, List.nil_append]

/-- Witness for C8 at a concrete store holding a stale block of the same
page and a block of another page. -/
theorem c8_witness :
    (importPageToDatabase
        (importPageToDatabase ⟨[], [blkA, { blkB with pageId := ("Q").toList }]⟩
          ⟨some (("P").toList), none, none, none, none, none⟩ [blkA] 8)
        ⟨some (("P").toList), none, none, none, none, none⟩ [blkA] 9).blocks
      = (importPageToDatabase ⟨[], [blkA, { blkB with pageId := ("Q").toList }]⟩
          ⟨some (("P").toList), none, none, none, none, none⟩ [blkA] 8).blocks ∧
    (importPageToDatabase ⟨[], [blkA, { blkB with pageId := ("Q").toList }]⟩
        ⟨some (("P").toList), none, none, none, none, none⟩ [blkA] 8).blocks.filter
      (fun b => b.pageId = ("P").toList) = [blkA] :=
  c8_import_replaces_and_is_idempotent _ _ _ _ _ _ rfl (by decide) (by decide)

-- ==================== C9 ====================

/-- Truthiness of the parsed frontmatter `id` (present and non-empty). -/
def hasTruthyId (content : Str) : Bool :=
  match fmGet (parseFrontmatter content).1 (("id").toList) with
  | some v => v ≠ []
  | none => false

/-- C9 counterexample input: a well-formed header region carrying a title
but no id. -/
def c9Input : Str := ("---\ntitle: \"t\"\n---\n- x\n").toList

/-- Claim C9 (counterexample): this document has a header region (its
frontmatter parses, yielding a title), yet `validateMarkdown` reports it
invalid, because the check also requires a truthy `id` value — contradicting
the claim that every document possessing a header region passes validation.
-/
theorem c9_header_without_id_counterexample :
    (parseFrontmatter c9Input).1 = [((("title").toList : Str), (("t").toList : Str))] ∧
    (validateMarkdown c9Input).1 = false := by
  constructor <;> decide

/-- Claim C9 (amended): validation passes exactly when the content starts
with the header start marker and the parsed frontmatter carries a truthy
`id`; a document with a header but no recoverable id is reported invalid,
even though `markdownToPage` would not fail on it — it synthesizes a fresh
page id instead. -/
theorem c9_validation_requires_id (content : Str) :
    ((validateMarkdown content).1 = true ↔
      (content.take 3 = ("---").toList ∧ hasTruthyId content = true)) ∧
    (hasTruthyId content = false →
      ∀ filename genPage gen parseDate now,
        (markdownToPage content filename genPage gen parseDate now).1.id = genPage) := by
  constructor
  · unfold validateMarkdown hasTruthyId
    by_cases h3 : content.take 3 = ("---").toList
    · have h3c : content.take 3 = ['-', '-', '-'] := h3
      simp only [if_pos h3]
      cases hid : fmGet (parseFrontmatter content).1 (("id").toList) with
      | none => simp
      | some v => by_cases hv : v = [] <;> simp [hv, h3c]
    · have h3c : ¬ content.take 3 = ['-', '-', '-'] := h3
      simp only [if_neg h3]
      cases hid : fmGet (parseFrontmatter content).1 (("id").toList) with
      | none => simp [h3c]
      | some v => by_cases hv : v = [] <;> simp [hv, h3c]
  · intro hf filename genPage gen parseDate now
    simp only [markdownToPage, hasTruthyId] at hf ⊢
    cases hid : fmGet (parseFrontmatter content).1 (("id").toList) with
    | none => simp [hid]
    | some v =>
      rw [hid] at hf
      simp only [ne_eq, decide_not] at hf
      have : v = [] := by
        by_contra hv
        simp [hv] at hf
      simp [hid, this]

/-- Witness for C9's amended theorem at the counterexample document. -/
theorem c9_witness :
    ((validateMarkdown c9Input).1 = true ↔
      (c9Input.take 3 = ("---").toList ∧ hasTruthyId c9Input = true)) ∧
    (hasTruthyId c9Input = false →
      ∀ filename genPage gen parseDate now,
        (markdownToPage c9Input filename genPage gen parseDate now).1.id = genPage) :=
  c9_validation_requires_id c9Input

-- ==================== C10 ====================

/-- Claim C10: `detectConflicts` returns false when the vault is not
initialized, the page is missing from the store, the directory lookup
fails or the file is missing; it returns true exactly when the file's
modification time is strictly greater than the stored page's `updatedAt`.
-/
theorem c10_detectConflicts_characterization (env : ConflictEnv) (pid : Str) :
    detectConflicts env pid = true ↔
      (env.vaultInitialized = true ∧
        ∃ page, env.pages.find? (fun p => p.id = pid) = some page ∧
          env.dirOk (getPageDirectory page) = true ∧
          ∃ t, env.fileTime (getPageDirectory page) (generateFilename page) = some t ∧
            page.updatedAt < t) := by
  cases hv : env.vaultInitialized with
  | false => simp [detectConflicts, hv]
  | true =>
    cases hp : env.pages.find? (fun p => p.id = pid) with
    | none => simp [detectConflicts, hv, hp]
    | some page =>
      cases hd : env.dirOk (getPageDirectory page) with
      | false => simp [detectConflicts, hv, hp, hd]
      | true =>
        cases hf : env.fileTime (getPageDirectory page) (generateFilename page) with
        | none => simp [detectConflicts, hv, hp, hd, hf]
        | some t => simp [detectConflicts, hv, hp, hd, hf, decide_eq_true_eq]

/-- Witness for C10 in a conflicted environment: the page exists, the
directory and file resolve, and the file is newer than the store. -/
theorem c10_witness :
    detectConflicts
      ⟨true, [pg1], fun _ => true, fun _ _ => some 7⟩ (("p1").toList) = true :=
  (c10_detectConflicts_characterization _ _).mpr
    ⟨rfl, pg1, by decide, rfl, 7, rfl, by decide⟩

-- ==================== C1 / C2 / C4 counterexamples ====================

/-- Claim C2 (counterexample): the serialized output with `blkA` collapsed
differs from the output with the same block expanded — `processBlock` skips
the children of a collapsed block, so the descendant `blkB` is not written.
-/
theorem c2_collapsed_serialization_counterexample :
    blocksToMarkdown [blkA, blkB] true 2 ≠
      blocksToMarkdown [{ blkA with collapsed := false }, blkB] true 2 := by
  decide

/-- Claim C1 (counterexample): for the tree with collapsed root `blkA` and
child `blkB`, parsing the serialized text yields a single block — the
collapsed block's descendant is dropped by serialization, so the round trip
does not reproduce the block set. -/
theorem c1_roundtrip_counterexample :
    (parseBlocks (blocksToMarkdown [blkA, blkB] true 2) (("P").toList) genU 9).length = 1 ∧
    ((parseBlocks (blocksToMarkdown [blkA, blkB] true 2) (("P").toList) genU 9).find?
      (fun b => b.id = ("b").toList)) = none ∧
    ([blkA, blkB] : List Block).length = 2 := by
  refine ⟨by decide, by decide, rfl⟩

/-- Claim C4 (counterexample): in `c4Input` the depth jumps from 0 to 3;
under the claimed rule block `b` would be treated as depth 1, making it the
nearest smaller-depth ancestor of the later block `c` at depth 2.  The
parser instead records the raw depth 3 for `b`, so `c`'s parent is `a`, not
`b`. -/
theorem c4_depth_clamp_counterexample :
    ((parseBlocks c4Input (("P").toList) genU 9).map (fun b => (b.id, b.parentId))) =
      [((("a").toList : Str), (none : Option Str)),
       ((("b").toList : Str), some (("a").toList)),
       ((("c").toList : Str), some (("a").toList))] ∧
    some (("a").toList) ≠ some (("b").toList) := by
  constructor <;> decide

-- ==================== C4: parser invariants ====================

/-- Every stack entry of the parser state is one of the already-finished
blocks. -/
def StackWF (st : PState) : Prop := ∀ e ∈ st.stack, e.1 ∈ st.blocks

/-- Every finished block is a root or has its parent among the finished
blocks. -/
def ParentsWF (bl : List Block) : Prop :=
  ∀ b ∈ bl, b.parentId = none ∨ ∃ b2 ∈ bl, b.parentId = some b2.id

theorem parentsWF_append_right {bl : List Block} (h : ParentsWF bl) (bl2 : List Block) :
    ∀ b ∈ bl, b.parentId = none ∨ ∃ b2 ∈ bl ++ bl2, b.parentId = some b2.id := by
  intro b hb
  rcases h b hb with h0 | ⟨b2, hb2, he⟩
  · exact Or.inl h0
  · exact Or.inr ⟨b2, List.mem_append_left _ hb2, he⟩

theorem flushCurrentBlock_wf (pageId : Str) (gen : Nat → Str) (now : Nat) (st : PState)
    (h1 : StackWF st) (h2 : ParentsWF st.blocks) :
    StackWF (flushCurrentBlock pageId gen now st) ∧
      ParentsWF (flushCurrentBlock pageId gen now st).blocks := by
  unfold flushCurrentBlock
  split
  · exact ⟨h1, h2⟩
  · dsimp only
    split
    · exact ⟨h1, h2⟩
    · constructor
      · intro e he
        simp only [List.mem_cons] at he
        rcases he with he | he
        · subst he
          exact List.mem_append_right _ (List.mem_singleton.mpr rfl)
        · exact List.mem_append_left _
            (h1 e ((List.dropWhile_sublist _).subset he))
      · intro b hb
        rcases List.mem_append.mp hb with hb | hb
        · exact parentsWF_append_right h2 _ b hb
        · rcases List.mem_singleton.mp hb with rfl
          simp only
          unfold findParent
          cases hf : st.stack.find? (fun e => e.2 < st.curDepth) with
          | none => exact Or.inl rfl
          | some e =>
            refine Or.inr ⟨e.1, List.mem_append_left _ (h1 e (List.mem_of_find?_eq_some hf)), rfl⟩

theorem parseLine_wf (pageId : Str) (gen : Nat → Str) (now : Nat) (st : PState) (line : Str)
    (h1 : StackWF st) (h2 : ParentsWF st.blocks) :
    StackWF (parseLine pageId gen now st line) ∧
      ParentsWF (parseLine pageId gen now st line).blocks := by
  unfold parseLine
  split
  · exact ⟨h1, h2⟩
  · split
    · exact flushCurrentBlock_wf pageId gen now st h1 h2
    · exact ⟨h1, h2⟩

theorem foldl_parseLine_wf (pageId : Str) (gen : Nat → Str) (now : Nat) (lines : List Str)
    (st : PState) (h1 : StackWF st) (h2 : ParentsWF st.blocks) :
    StackWF (lines.foldl (parseLine pageId gen now) st) ∧
      ParentsWF (lines.foldl (parseLine pageId gen now) st).blocks := by
  induction lines generalizing st with
  | nil => exact ⟨h1, h2⟩
  | cons l ls ih =>
    have h := parseLine_wf pageId gen now st l h1 h2
    exact ih (parseLine pageId gen now st l) h.1 h.2

/-- Claim C4 (amended): the parser determines each block's parent by walking
backward through previously-closed blocks to the nearest one with depth
strictly less than the current depth, but it records the raw depth
`floor(indent / 2)` without any `previous depth + 1` adjustment for skipped
levels (see the counterexample).  It is nonetheless total — `parseBlocks` is
a function on all inputs — and every parsed block is either a root or has
its parent among the parsed blocks. -/
theorem c4_parser_parent_exists (content pageId : Str) (gen : Nat → Str) (now : Nat)
    (b : Block) (hb : b ∈ parseBlocks content pageId gen now) :
    b.parentId = none ∨ ∃ b2 ∈ parseBlocks content pageId gen now, b.parentId = some b2.id := by
  have h0 : StackWF (⟨[], [], [], 0, 0⟩ : PState) := by intro e he; cases he
  have h0b : ParentsWF (PState.blocks ⟨[], [], [], 0, 0⟩) := by intro x hx; cases hx
  have hf := foldl_parseLine_wf pageId gen now (splitOnNl content) ⟨[], [], [], 0, 0⟩ h0 h0b
  have hfin := flushCurrentBlock_wf pageId gen now _ hf.1 hf.2
  exact hfin.2 b hb

/-- Witness for C4's amended theorem: the first block parsed from
`c4Input` is a root of the parse result. -/
theorem c4_witness :
    (⟨['a'], ['a'], none, ("P").toList, 0, false, 9, 9⟩ : Block) ∈
        parseBlocks c4Input (("P").toList) genU 9 ∧
    ((⟨['a'], ['a'], none, ("P").toList, 0, false, 9, 9⟩ : Block).parentId = none ∨
      ∃ b2 ∈ parseBlocks c4Input (("P").toList) genU 9,
        (⟨['a'], ['a'], none, ("P").toList, 0, false, 9, 9⟩ : Block).parentId = some b2.id) :=
  ⟨by decide, c4_parser_parent_exists c4Input (("P").toList) genU 9 _ (by decide)⟩

-- ==================== C2: collapse and serialization ====================

/-- Reset every collapse flag (the "same blocks, expanded" store). -/
def expandAll (blocks : List Block) : List Block :=
  blocks.map (fun b => { b with collapsed := false })

theorem mem_of_mem_insertByOrder {a b : Block} {l : List Block}
    (h : a ∈ insertByOrder b l) : a = b ∨ a ∈ l := by
  induction l with
  | nil => exact Or.inl (List.mem_singleton.mp h)
  | cons x xs ih =>
    unfold insertByOrder at h
    split at h
    · rcases List.mem_cons.mp h with rfl | h
      · exact Or.inr (List.mem_cons_self _ _)
      · rcases ih h with h | h
        · exact Or.inl h
        · exact Or.inr (List.mem_cons_of_mem _ h)
    · rcases List.mem_cons.mp h with rfl | h
      · exact Or.inl rfl
      · exact Or.inr h

theorem mem_of_mem_sortByOrder {a : Block} {l : List Block} (h : a ∈ sortByOrder l) : a ∈ l := by
  induction l with
  | nil => exact h
  | cons x xs ih =>
    rcases mem_of_mem_insertByOrder h with rfl | h
    · exact List.mem_cons_self _ _
    · exact List.mem_cons_of_mem _ (ih h)

theorem insertByOrder_expand (b : Block) (l : List Block) :
    insertByOrder { b with collapsed := false } (expandAll l) =
      expandAll (insertByOrder b l) := by
  induction l with
  | nil => rfl
  | cons x xs ih =>
    simp only [expandAll, List.map_cons, insertByOrder]
    split
    · rw [show (insertByOrder { b with collapsed := false } (List.map (fun b =>
        { b with collapsed := false }) xs)) = expandAll (insertByOrder b xs) from ih]
      rfl
    · rfl

theorem sortByOrder_expand (l : List Block) :
    sortByOrder (expandAll l) = expandAll (sortByOrder l) := by
  induction l with
  | nil => rfl
  | cons x xs ih =>
    simp only [expandAll, List.map_cons, sortByOrder] at ih ⊢
    rw [ih]
    exact insertByOrder_expand x (sortByOrder xs)

theorem filter_parent_expand (blocks : List Block) (q : Option Str) :
    (expandAll blocks).filter (fun b => b.parentId = q) =
      expandAll (blocks.filter (fun b => b.parentId = q)) := by
  induction blocks with
  | nil => rfl
  | cons x xs ih =>
    simp only [expandAll, List.map_cons, List.filter_cons] at ih ⊢
    by_cases hx : x.parentId = q
    · simp [hx, ih]
    · simp [hx, ih]

theorem childrenOf_expand (blocks : List Block) (bid : Str) :
    childrenOf (expandAll blocks) bid = expandAll (childrenOf blocks bid) := by
  unfold childrenOf
  rw [filter_parent_expand, sortByOrder_expand]

theorem processBlock_expand (blocks : List Block) (ids : Bool) (n : Nat)
    (h : ∀ b ∈ blocks, b.collapsed = true → ∀ b2 ∈ blocks, b2.parentId ≠ some b.id) :
    ∀ fuel (b : Block), b ∈ blocks → ∀ d,
      processBlock (expandAll blocks) ids n fuel { b with collapsed := false } d =
        processBlock blocks ids n fuel b d := by
  intro fuel
  induction fuel with
  | zero => intro b _ d; rfl
  | succ fuel ih =>
    intro b hb d
    unfold processBlock
    dsimp only
    congr 1
    cases hc : b.collapsed with
    | false =>
      simp only [if_pos rfl]
      rw [childrenOf_expand]
      unfold expandAll
      rw [List.map_map]
      refine congrArg List.flatten (List.map_congr_left ?_)
      intro c hc2
      have hcmem : c ∈ blocks := List.mem_of_mem_filter (mem_of_mem_sortByOrder hc2)
      exact ih c hcmem (d + 1)
    | true =>
      have hnc : blocks.filter (fun b2 => b2.parentId = some b.id) = [] := by
        rw [List.filter_eq_nil_iff]
        intro b2 hb2
        simpa using h b hb hc b2 hb2
      have hech : childrenOf (expandAll blocks) b.id = [] := by
        rw [childrenOf_expand]
        unfold childrenOf
        rw [hnc]
        rfl
      simp only [if_pos rfl, hech, if_neg (by simp [hc] : ¬ b.collapsed = false)]
      rfl

/-- Claim C2 (amended): collapse changes the serialized output in general —
`processBlock` omits the descendants of a collapsed block (see the
counterexample) — but for a store in which no collapsed block has children,
resetting all collapse flags leaves the serialized text unchanged; the
collapse flag of a childless block has no effect on export. -/
theorem c2_collapsed_childless_serialization (blocks : List Block) (ids : Bool) (n : Nat)
    (h : ∀ b ∈ blocks, b.collapsed = true → ∀ b2 ∈ blocks, b2.parentId ≠ some b.id) :
    blocksToMarkdown (expandAll blocks) ids n = blocksToMarkdown blocks ids n := by
  unfold blocksToMarkdown
  congr 1
  have hroot : rootBlocksOf (expandAll blocks) = expandAll (rootBlocksOf blocks) := by
    unfold rootBlocksOf
    rw [filter_parent_expand, sortByOrder_expand]
  have hlen : (expandAll blocks).length = blocks.length := List.length_map _ _
  rw [hroot, hlen]
  unfold expandAll
  rw [List.map_map]
  refine congrArg List.flatten (List.map_congr_left ?_)
  intro b hbmem
  have hb : b ∈ blocks := List.mem_of_mem_filter (mem_of_mem_sortByOrder hbmem)
  exact processBlock_expand blocks ids n h (blocks.length + 1) b hb 0

/-- Witness for C2's amended theorem: a collapsed leaf next to an expanded
parent and child serializes the same with its flag cleared. -/
theorem c2_witness :
    blocksToMarkdown (expandAll [{ blkB with id := ['z'], parentId := none, collapsed := true },
        { blkA with collapsed := false }, blkB]) true 2 =
      blocksToMarkdown [{ blkB with id := ['z'], parentId := none, collapsed := true },
        { blkA with collapsed := false }, blkB] true 2 :=
  c2_collapsed_childless_serialization _ true 2 (by decide)

-- ==================== C1: block forests ====================

/-- A block tree: id, content, collapse flag, ordered children.  A store
shaped as a forest of these (see `forestRecs`) is the class of stores the
round-trip claim quantifies over. -/
inductive BTree where
  | node (bid : Str) (text : Str) (flag : Bool) (kids : List BTree)

/-- Id of the root of a tree. -/
def BTree.bid : BTree → Str
  | node i _ _ _ => i

/-- Content of the root of a tree. -/
def BTree.text : BTree → Str
  | node _ c _ _ => c

/-- Collapse flag of the root of a tree. -/
def BTree.flag : BTree → Bool
  | node _ _ f _ => f

/-- Children of the root of a tree. -/
def BTree.kids : BTree → List BTree
  | node _ _ _ cs => cs

/-- Number of nodes of a forest. -/
def sizeF : List BTree → Nat
  | [] => 0
  | BTree.node _ _ _ cs :: ts => 1 + sizeF cs + sizeF ts

/-- Structural induction over forests: a motive holds of every forest once
it propagates from the children forest and the sibling forest to the whole.
-/
theorem forest_ind (motive : List BTree → Prop) (hnil : motive [])
    (hcons : ∀ i c col cs ts, motive cs → motive ts → motive (BTree.node i c col cs :: ts)) :
    ∀ F, motive F := by
  have H : ∀ n F, sizeF F ≤ n → motive F := by
    intro n
    induction n with
    | zero =>
      intro F hF
      cases F with
      | nil => exact hnil
      | cons t ts =>
        cases t with
        | node i c col cs => simp [sizeF] at hF
    | succ n ih =>
      intro F hF
      cases F with
      | nil => exact hnil
      | cons t ts =>
        cases t with
        | node i c col cs =>
          simp only [sizeF] at hF
          exact hcons i c col cs ts (ih cs (by omega)) (ih ts (by omega))
  exact fun F => H (sizeF F) F (Nat.le_refl _)

/-- Ids of all nodes of a forest, preorder. -/
def idsOf : List BTree → List Str
  | [] => []
  | BTree.node i _ _ cs :: ts => i :: (idsOf cs ++ idsOf ts)

/-- All nodes of a forest, preorder. -/
def subtrees : List BTree → List BTree
  | [] => []
  | BTree.node i c col cs :: ts => BTree.node i c col cs :: (subtrees cs ++ subtrees ts)

/-- Nesting height of a forest. -/
def heightF : List BTree → Nat
  | [] => 0
  | BTree.node _ _ _ cs :: ts => max (1 + heightF cs) (heightF ts)

/-- The flat store of a forest: one record per node in preorder, parents by
structure, orders 0, 1, ... within each sibling list (offset `i` for the
roots), collapse flags kept when `keep` is true and cleared otherwise, all
timestamps `now`. -/
def forestRecs (pid : Str) (keep : Bool) (now : Nat) : Option Str → Nat → List BTree → List Block
  | _, _, [] => []
  | p, i, BTree.node bid c col cs :: ts =>
    ⟨bid, c, p, pid, i, keep && col, now, now⟩ ::
      (forestRecs pid keep now (some bid) 0 cs ++ forestRecs pid keep now p (i + 1) ts)

/-- Only the root records of a forest (the sibling list of one parent). -/
def rootRecs (pid : Str) (keep : Bool) (now : Nat) : Option Str → Nat → List BTree → List Block
  | _, _, [] => []
  | p, i, BTree.node bid c col _ :: ts =>
    ⟨bid, c, p, pid, i, keep && col, now, now⟩ :: rootRecs pid keep now p (i + 1) ts

/-- Content hygiene for the round trip: trim-stable and single-line. -/
def ContentOk (c : Str) : Prop := jsTrim c = c ∧ '\n' ∉ c

/-- Id hygiene: non-empty and made of id-marker characters. -/
def IdOk (i : Str) : Prop := i ≠ [] ∧ ∀ ch ∈ i, isIdChar ch = true

/-- Node hygiene: content and id hygienic, and a collapsed node childless
(the counterexample shows the round trip fails otherwise). -/
def HygT (t : BTree) : Prop := ContentOk t.text ∧ IdOk t.bid ∧ (t.flag = true → t.kids = [])

/-- Forest hygiene: every node hygienic. -/
def HygF (F : List BTree) : Prop := ∀ t ∈ subtrees F, HygT t

/-- The serialized line of one block at one depth. -/
def serLine (d : Nat) (c bid : Str) : Str :=
  spaces (d * 2) ++ ("- ").toList ++ c ++ ' ' :: '^' :: bid

/-- The serialized lines of a forest at a base depth. -/
def serForest : List BTree → Nat → List Str
  | [], _ => []
  | BTree.node bid c _ cs :: ts, d => serLine d c bid :: (serForest cs (d + 1) ++ serForest ts d)

/-- The (depth, content, id) line specifications of a forest. -/
def serSpec : List BTree → Nat → List (Nat × Str × Str)
  | [], _ => []
  | BTree.node bid c _ cs :: ts, d => (d, c, bid) :: (serSpec cs (d + 1) ++ serSpec ts d)

/-- Lines of a specification list. -/
def linesFor (sp : List (Nat × Str × Str)) : List Str :=
  sp.map (fun e => serLine e.1 e.2.1 e.2.2)

theorem serForest_eq_linesFor (F : List BTree) : ∀ d, serForest F d = linesFor (serSpec F d) := by
  induction F using forest_ind with
  | hnil => intro d; simp [serForest, serSpec, linesFor]
  | hcons i c col cs ts ihcs ihts =>
    intro d
    simp only [serForest, serSpec, linesFor, List.map_cons, List.map_append]
    rw [← linesFor, ← linesFor, ← ihcs (d + 1), ← ihts d]

-- ==================== C1: string lemmas ====================

theorem takeWhile_middle {p : Char → Bool} (xs : Str) (y : Char) (rest : Str)
    (hxs : ∀ x ∈ xs, p x = true) (hy : p y = false) :
    (xs ++ y :: rest).takeWhile p = xs := by
  induction xs with
  | nil => simp [List.takeWhile_cons, hy]
  | cons x xt ih =>
    have hx := hxs x (List.mem_cons_self _ _)
    simp only [List.cons_append, List.takeWhile_cons, hx, if_true]
    rw [ih (fun z hz => hxs z (List.mem_cons_of_mem _ hz))]

theorem dropWhile_middle {p : Char → Bool} (xs : Str) (y : Char) (rest : Str)
    (hxs : ∀ x ∈ xs, p x = true) (hy : p y = false) :
    (xs ++ y :: rest).dropWhile p = y :: rest := by
  induction xs with
  | nil => simp [List.dropWhile_cons, hy]
  | cons x xt ih =>
    have hx := hxs x (List.mem_cons_self _ _)
    simp only [List.cons_append, List.dropWhile_cons, hx, if_true]
    exact ih (fun z hz => hxs z (List.mem_cons_of_mem _ hz))

theorem length_dropWhile_le2 {α : Type} (p : α → Bool) (l : List α) :
    (l.dropWhile p).length ≤ l.length := by
  induction l with
  | nil => exact Nat.le_refl _
  | cons x xs ih =>
    cases hx : p x with
    | true =>
      simp only [List.dropWhile_cons, hx, if_true]
      exact Nat.le_succ_of_le ih
    | false =>
      simp only [List.dropWhile_cons, hx]
      exact Nat.le_refl _

theorem dropWhile_eq_self_of_length {α : Type} (p : α → Bool) (l : List α)
    (h : (l.dropWhile p).length = l.length) : l.dropWhile p = l := by
  cases l with
  | nil => rfl
  | cons x xs =>
    cases hx : p x with
    | true =>
      exfalso
      have h1 : (List.dropWhile p (x :: xs)).length ≤ xs.length := by
        simp only [List.dropWhile_cons, hx, if_true]
        exact length_dropWhile_le2 p xs
      rw [h] at h1
      simp at h1
    | false => simp [List.dropWhile_cons, hx]

theorem trim_drops (c : Str) (h : jsTrim c = c) :
    c.dropWhile isWS = c ∧ c.reverse.dropWhile isWS = c.reverse := by
  have hlen : (jsTrim c).length = c.length := congrArg List.length h
  unfold jsTrim at hlen
  have l1 : ((c.dropWhile isWS).reverse.dropWhile isWS).length ≤ (c.dropWhile isWS).length := by
    have := length_dropWhile_le2 isWS (c.dropWhile isWS).reverse
    simpa using this
  have l2 : (c.dropWhile isWS).length ≤ c.length := length_dropWhile_le2 isWS c
  rw [List.length_reverse] at hlen
  have e2 : (c.dropWhile isWS).length = c.length := Nat.le_antisymm l2 (by omega)
  have hdw : c.dropWhile isWS = c := dropWhile_eq_self_of_length _ _ e2
  refine ⟨hdw, ?_⟩
  have e1 : ((c.dropWhile isWS).reverse.dropWhile isWS).length =
      (c.dropWhile isWS).reverse.length := by
    rw [List.length_reverse, e2, hlen]
  have := dropWhile_eq_self_of_length isWS (c.dropWhile isWS).reverse e1
  rwa [hdw] at this

theorem trim_head_not_ws {c : Str} {x : Char} {t : Str} (h : jsTrim c = c) (hc : c = x :: t) :
    isWS x = false := by
  have hdw := (trim_drops c h).1
  rw [hc] at hdw
  by_contra hx
  have hx' : isWS x = true := Bool.not_eq_false _ |>.mp hx
  have : (List.dropWhile isWS (x :: t)).length ≤ t.length := by
    simp only [List.dropWhile, hx']
    exact length_dropWhile_le2 isWS t
  rw [hdw] at this
  simp at this

theorem jsTrim_of_ends (c : Str) (h1 : c.dropWhile isWS = c) (h2 : c.reverse.dropWhile isWS = c.reverse) :
    jsTrim c = c := by
  unfold jsTrim
  rw [h1, h2, List.reverse_reverse]

theorem isIdChar_not_ws {ch : Char} (h : isIdChar ch = true) : isWS ch = false := by
  unfold isIdChar at h
  unfold isWS
  rcases Bool.or_eq_true_iff.mp h with h | h
  · unfold Char.isAlphanum at h
    rcases Bool.or_eq_true_iff.mp h with h | h
    · unfold Char.isAlpha at h
      rcases Bool.or_eq_true_iff.mp h with h | h
      · unfold Char.isUpper at h
        unfold Char.isWhitespace
        rcases Bool.and_eq_true_iff.mp h with ⟨ha, hb⟩
        simp only [decide_eq_true_eq] at ha hb
        simp only [Bool.or_eq_false_iff, decide_eq_false_iff_not]
        refine ⟨⟨⟨?_, ?_⟩, ?_⟩, ?_⟩ <;> intro hcontra <;> rw [hcontra] at ha hb <;> simp_all
      · unfold Char.isLower at h
        unfold Char.isWhitespace
        rcases Bool.and_eq_true_iff.mp h with ⟨ha, hb⟩
        simp only [decide_eq_true_eq] at ha hb
        simp only [Bool.or_eq_false_iff, decide_eq_false_iff_not]
        refine ⟨⟨⟨?_, ?_⟩, ?_⟩, ?_⟩ <;> intro hcontra <;> rw [hcontra] at ha hb <;> simp_all
    · unfold Char.isDigit at h
      unfold Char.isWhitespace
      rcases Bool.and_eq_true_iff.mp h with ⟨ha, hb⟩
      simp only [decide_eq_true_eq] at ha hb
      simp only [Bool.or_eq_false_iff, decide_eq_false_iff_not]
      refine ⟨⟨⟨?_, ?_⟩, ?_⟩, ?_⟩ <;> intro hcontra <;> rw [hcontra] at ha hb <;> simp_all
  · simp only [decide_eq_true_eq] at h
    subst h
    decide

theorem splitOnNl_append_eq (l : Str) (hl : '\n' ∉ l) (r : Str) (h : Str) (t : List Str)
    (hr : splitOnNl r = h :: t) : splitOnNl (l ++ r) = (l ++ h) :: t := by
  induction l with
  | nil => simpa using hr
  | cons x xl ih =>
    have hx : x ≠ '\n' := fun hc => hl (hc ▸ List.mem_cons_self _ _)
    have ihr := ih (fun hc => hl (List.mem_cons_of_mem _ hc))
    simp only [List.cons_append, splitOnNl, if_neg hx, List.append_eq]
    rw [ihr]

theorem splitOnNl_single (l : Str) (hl : '\n' ∉ l) : splitOnNl l = [l] := by
  have := splitOnNl_append_eq l hl [] [] [] rfl
  simpa using this

theorem splitOnNl_joinNl (L : List Str) (hL : ∀ l ∈ L, '\n' ∉ l) (hne : L ≠ []) :
    splitOnNl (joinNl L) = L := by
  induction L with
  | nil => exact absurd rfl hne
  | cons l ls ih =>
    cases ls with
    | nil => exact splitOnNl_single l (hL l (List.mem_cons_self _ _))
    | cons l2 ls2 =>
      have hrec : splitOnNl (joinNl (l2 :: ls2)) = l2 :: ls2 :=
        ih (fun x hx => hL x (List.mem_cons_of_mem _ hx)) (List.cons_ne_nil _ _)
      have hr : splitOnNl ('\n' :: joinNl (l2 :: ls2)) = [] :: l2 :: ls2 := by
        simp [splitOnNl, hrec]
      have := splitOnNl_append_eq l (hL l (List.mem_cons_self _ _)) _ _ _ hr
      simpa [joinNl] using this

theorem mem_dropWhile_of_not {p : Char → Bool} {x : Char} {l : Str}
    (hx : x ∈ l) (hpx : p x = false) : x ∈ l.dropWhile p := by
  induction l with
  | nil => cases hx
  | cons y yl ih =>
    cases hy : p y with
    | true =>
      rcases List.mem_cons.mp hx with rfl | hx2
      · rw [hy] at hpx; cases hpx
      · simp only [List.dropWhile_cons, hy, if_true]
        exact ih hx2
    | false =>
      simp only [List.dropWhile_cons, hy]
      exact hx

theorem jsTrim_ne_nil_of_mem {x : Char} {l : Str} (hx : x ∈ l) (hpx : isWS x = false) :
    jsTrim l ≠ [] := by
  intro hnil
  unfold jsTrim at hnil
  rw [List.reverse_eq_nil_iff] at hnil
  have hall := List.dropWhile_eq_nil_iff.mp hnil
  have hx1 : x ∈ (l.dropWhile isWS).reverse :=
    List.mem_reverse.mpr (mem_dropWhile_of_not hx hpx)
  have := hall x hx1
  rw [hpx] at this
  cases this

theorem jsTrim_append_space (c : Str) (hc : jsTrim c = c) : jsTrim (c ++ [' ']) = c := by
  cases c with
  | nil => decide
  | cons c0 ct =>
    have hh : isWS c0 = false := trim_head_not_ws hc rfl
    unfold jsTrim
    rw [show ((c0 :: ct) ++ [' ']).dropWhile isWS = (c0 :: ct) ++ [' '] by
      simp only [List.cons_append, List.dropWhile_cons, hh]; rfl]
    rw [show ((c0 :: ct) ++ [' ']).reverse = ' ' :: (c0 :: ct).reverse by
      simp [List.reverse_append]]
    rw [show (' ' :: (c0 :: ct).reverse).dropWhile isWS = (c0 :: ct).reverse.dropWhile isWS by
      simp [List.dropWhile_cons, isWS]]
    rw [(trim_drops _ hc).2, List.reverse_reverse]

theorem flush_extract (c i : Str) (hc : ContentOk c) (hi : IdOk i) :
    jsTrim (c ++ ' ' :: '^' :: i) ≠ [] ∧
      splitTrailingId (jsTrim (c ++ ' ' :: '^' :: i)) = some (c, i) := by
  obtain ⟨hine, hall⟩ := hi
  obtain ⟨z, zr, hzr⟩ : ∃ z zr, i.reverse = z :: zr := by
    cases hrev : i.reverse with
    | nil => exact absurd (List.reverse_eq_nil_iff.mp hrev) hine
    | cons z zr => exact ⟨z, zr, rfl⟩
  have hz : isIdChar z = true := hall z (List.mem_reverse.mp (hzr ▸ List.mem_cons_self _ _))
  have hzw : isWS z = false := isIdChar_not_ws hz
  have hallrev : ∀ x ∈ i.reverse, isIdChar x = true := fun x hx =>
    hall x (List.mem_reverse.mp hx)
  have hcaret : isIdChar '^' = false := by decide
  by_cases hcnil : c = []
  · subst hcnil
    have hT : jsTrim ([] ++ ' ' :: '^' :: i) = '^' :: i := by
      unfold jsTrim
      rw [show ((([] : Str) ++ ' ' :: '^' :: i).dropWhile isWS) = '^' :: i by
        simp [List.dropWhile_cons, isWS]]
      rw [show ('^' :: i).reverse = i.reverse ++ ['^'] by simp]
      rw [hzr]
      rw [show ((z :: zr ++ ['^']).dropWhile isWS) = z :: zr ++ ['^'] by
        simp [List.dropWhile_cons, hzw]]
      rw [← hzr]
      simp
    refine ⟨by rw [hT]; exact List.cons_ne_nil _ _, ?_⟩
    rw [hT]
    unfold splitTrailingId
    dsimp only
    rw [show ('^' :: i).reverse = i.reverse ++ ['^'] by simp]
    rw [show (i.reverse ++ ['^']).takeWhile isIdChar = i.reverse from
      takeWhile_middle i.reverse '^' [] hallrev hcaret]
    rw [if_neg (by rw [hzr]; exact List.cons_ne_nil _ _)]
    rw [List.drop_left]
    simp [jsTrim]
  · obtain ⟨c0, ct, rfl⟩ : ∃ c0 ct, c = c0 :: ct := by
      cases c with
      | nil => exact absurd rfl hcnil
      | cons c0 ct => exact ⟨c0, ct, rfl⟩
    have hh : isWS c0 = false := trim_head_not_ws hc.1 rfl
    have hT : jsTrim ((c0 :: ct) ++ ' ' :: '^' :: i) = (c0 :: ct) ++ ' ' :: '^' :: i := by
      apply jsTrim_of_ends
      · simp only [List.cons_append, List.dropWhile_cons, hh]; rfl
      · rw [show ((c0 :: ct) ++ ' ' :: '^' :: i).reverse
            = i.reverse ++ '^' :: ' ' :: (c0 :: ct).reverse by
          simp [List.reverse_append]]
        rw [hzr]
        simp only [List.cons_append, List.dropWhile_cons, hzw]
        rfl
    refine ⟨by rw [hT]; exact List.cons_ne_nil _ _, ?_⟩
    rw [hT]
    unfold splitTrailingId
    dsimp only
    rw [show ((c0 :: ct) ++ ' ' :: '^' :: i).reverse
        = i.reverse ++ '^' :: ' ' :: (c0 :: ct).reverse by simp [List.reverse_append]]
    rw [show (i.reverse ++ '^' :: ' ' :: (c0 :: ct).reverse).takeWhile isIdChar = i.reverse from
      takeWhile_middle i.reverse '^' _ hallrev hcaret]
    rw [if_neg (by rw [hzr]; exact List.cons_ne_nil _ _)]
    rw [List.drop_left]
    have : (' ' :: (c0 :: ct).reverse).reverse = (c0 :: ct) ++ [' '] := by simp
    simp only [this, List.reverse_reverse]
    rw [jsTrim_append_space _ hc.1]

theorem mem_spaces {x : Char} {n : Nat} (hx : x ∈ spaces n) : x = ' ' :=
  List.eq_of_mem_replicate hx

theorem lineMarker_serLine (d : Nat) (c i : Str) :
    lineMarker (serLine d c i) = some (d * 2, c ++ ' ' :: '^' :: i) := by
  have hsp : ∀ x ∈ spaces (d * 2), isWS x = true := by
    intro x hx
    rw [mem_spaces hx]
    decide
  have hdash : isWS '-' = false := by decide
  have hshape : serLine d c i = spaces (d * 2) ++ '-' :: ' ' :: (c ++ ' ' :: '^' :: i) := by
    unfold serLine
    simp
  have h1 : (serLine d c i).takeWhile isWS = spaces (d * 2) := by
    rw [hshape]
    exact takeWhile_middle _ '-' _ hsp hdash
  have h2 : (serLine d c i).drop (spaces (d * 2)).length = '-' :: ' ' :: (c ++ ' ' :: '^' :: i) := by
    rw [hshape, List.drop_left]
  unfold lineMarker
  rw [h1]
  dsimp only
  rw [h2]
  simp [spaces]

theorem nl_not_mem_serLine (d : Nat) (c i : Str) (hc : ContentOk c) (hi : IdOk i) :
    '\n' ∉ serLine d c i := by
  intro hmem
  rw [show serLine d c i = spaces (d * 2) ++ '-' :: ' ' :: (c ++ ' ' :: '^' :: i) by
    unfold serLine; simp] at hmem
  rcases List.mem_append.mp hmem with h | h
  · exact absurd (mem_spaces h) (by decide)
  · rcases List.mem_cons.mp h with h | h
    · exact absurd h (by decide)
    · rcases List.mem_cons.mp h with h | h
      · exact absurd h (by decide)
      · rcases List.mem_append.mp h with h | h
        · exact hc.2 h
        · rcases List.mem_cons.mp h with h | h
          · exact absurd h (by decide)
          · rcases List.mem_cons.mp h with h | h
            · exact absurd h (by decide)
            · exact absurd (hi.2 '\n' h) (by decide)

theorem jsTrim_serLine_ne_nil (d : Nat) (c i : Str) : jsTrim (serLine d c i) ≠ [] := by
  have hmem : '-' ∈ serLine d c i := by
    unfold serLine
    refine List.mem_append_left _ (List.mem_append_left _ (List.mem_append_right _ ?_))
    exact List.mem_cons_self _ _
  exact jsTrim_ne_nil_of_mem hmem (by decide)

-- ==================== C1: serialization of a forest store ====================

theorem mem_forestRecs {pid : Str} {keep : Bool} {now : Nat} :
    ∀ F (p : Option Str) (i : Nat) (b : Block), b ∈ forestRecs pid keep now p i F →
      (b.parentId = p ∨ ∃ x ∈ idsOf F, b.parentId = some x) ∧ b.id ∈ idsOf F := by
  intro F
  induction F using forest_ind with
  | hnil => intro p i b hb; simp [forestRecs] at hb
  | hcons bid c col cs ts ihcs ihts =>
    intro p i b hb
    simp only [forestRecs, List.mem_cons, List.mem_append] at hb
    rcases hb with rfl | hb | hb
    · exact ⟨Or.inl rfl, by simp [idsOf]⟩
    · obtain ⟨hpar, hid⟩ := ihcs (some bid) 0 b hb
      constructor
      · rcases hpar with h | ⟨x, hx, he⟩
        · exact Or.inr ⟨bid, by simp [idsOf], h⟩
        · exact Or.inr ⟨x, by simp [idsOf, hx], he⟩
      · simp [idsOf, hid]
    · obtain ⟨hpar, hid⟩ := ihts p (i + 1) b hb
      constructor
      · rcases hpar with h | ⟨x, hx, he⟩
        · exact Or.inl h
        · exact Or.inr ⟨x, by simp [idsOf, hx], he⟩
      · simp [idsOf, hid]

theorem filter_forestRecs_ext {pid : Str} {keep : Bool} {now : Nat} (F : List BTree)
    (p q : Option Str) (i : Nat) (hq1 : q ≠ p) (hq2 : ∀ x ∈ idsOf F, q ≠ some x) :
    (forestRecs pid keep now p i F).filter (fun b => b.parentId = q) = [] := by
  rw [List.filter_eq_nil_iff]
  intro b hb
  obtain ⟨hpar, _⟩ := mem_forestRecs F p i b hb
  simp only [decide_eq_true_eq]
  rcases hpar with h | ⟨x, hx, he⟩
  · rw [h]
    exact fun hc => hq1 hc.symm
  · rw [he]
    exact fun hc => hq2 x hx hc.symm

theorem filter_forestRecs_self {pid : Str} {keep : Bool} {now : Nat} :
    ∀ F (p : Option Str) (i : Nat), (∀ x ∈ idsOf F, p ≠ some x) →
      (forestRecs pid keep now p i F).filter (fun b => b.parentId = p) =
        rootRecs pid keep now p i F := by
  intro F
  induction F using forest_ind with
  | hnil => intro p i _; simp [forestRecs, rootRecs]
  | hcons bid c col cs ts ihcs ihts =>
    intro p i hp
    have hpbid : p ≠ some bid := hp bid (by simp [idsOf])
    simp only [forestRecs, rootRecs, List.filter_cons, List.filter_append]
    rw [if_pos (by simp)]
    rw [filter_forestRecs_ext cs (some bid) p 0 hpbid
      (fun x hx hc => hp x (by simp [idsOf, hx]) hc)]
    rw [ihts p (i + 1) (fun x hx => hp x (by simp [idsOf, hx]))]
    rw [List.nil_append]

theorem bid_mem_idsOf {t : BTree} : ∀ {F : List BTree}, t ∈ subtrees F → t.bid ∈ idsOf F := by
  intro F
  induction F using forest_ind with
  | hnil => intro h; simp [subtrees] at h
  | hcons bid c col cs ts ihcs ihts =>
    intro h
    simp only [subtrees, List.mem_cons, List.mem_append] at h
    rcases h with rfl | h | h
    · simp [idsOf, BTree.bid]
    · simp [idsOf, ihcs h]
    · simp [idsOf, ihts h]

theorem filter_forestRecs_child {pid : Str} {keep : Bool} {now : Nat} :
    ∀ F (p : Option Str) (i : Nat), (idsOf F).Nodup → (∀ x ∈ idsOf F, p ≠ some x) →
      ∀ t ∈ subtrees F,
        (forestRecs pid keep now p i F).filter (fun b => b.parentId = some t.bid) =
          rootRecs pid keep now (some t.bid) 0 t.kids := by
  intro F
  induction F using forest_ind with
  | hnil => intro p i _ _ t ht; simp [subtrees] at ht
  | hcons bid c col cs ts ihcs ihts =>
    intro p i hnd hp t ht
    have hbid : bid ∉ idsOf cs ++ idsOf ts := (List.nodup_cons.mp (by simpa [idsOf] using hnd)).1
    have hnd2 : (idsOf cs ++ idsOf ts).Nodup := (List.nodup_cons.mp (by simpa [idsOf] using hnd)).2
    obtain ⟨hndcs, hndts, hdisj⟩ := List.nodup_append.mp hnd2
    have hbidcs : bid ∉ idsOf cs := fun hx => hbid (List.mem_append_left _ hx)
    have hbidts : bid ∉ idsOf ts := fun hx => hbid (List.mem_append_right _ hx)
    simp only [subtrees, List.mem_cons, List.mem_append] at ht
    simp only [forestRecs, List.filter_cons, List.filter_append]
    rcases ht with rfl | ht | ht
    · simp only [BTree.bid, BTree.kids]
      rw [if_neg (by
        simp only [decide_eq_true_eq]
        exact hp bid (by simp [idsOf]))]
      rw [filter_forestRecs_self cs (some bid) 0
        (fun x hx hc => hbidcs (by rw [Option.some.inj hc]; exact hx))]
      rw [filter_forestRecs_ext ts p (some bid) (i + 1)
        (fun hc => hp bid (by simp [idsOf]) hc.symm)
        (fun x hx hc => hbidts (by rw [Option.some.inj hc]; exact hx))]
      rw [List.append_nil]
    · have htb : t.bid ∈ idsOf cs := bid_mem_idsOf ht
      rw [if_neg (by
        simp only [decide_eq_true_eq]
        exact hp t.bid (by simp [idsOf, htb]))]
      rw [ihcs (some bid) 0 hndcs
        (fun x hx hc => hbidcs (by rw [Option.some.inj hc]; exact hx)) t ht]
      rw [filter_forestRecs_ext ts p (some t.bid) (i + 1)
        (fun hc => hp t.bid (by simp [idsOf, htb]) hc.symm)
        (fun x hx hc => hdisj htb (by rw [Option.some.inj hc]; exact hx))]
      rw [List.append_nil]
    · have htb : t.bid ∈ idsOf ts := bid_mem_idsOf ht
      rw [if_neg (by
        simp only [decide_eq_true_eq]
        exact hp t.bid (by simp [idsOf, htb]))]
      rw [filter_forestRecs_ext cs (some bid) (some t.bid) 0
        (fun hc => hbidts (by rw [← Option.some.inj hc]; exact htb))
        (fun x hx hc => hdisj (by rw [Option.some.inj hc]; exact hx) htb)]
      rw [ihts p (i + 1) hndts (fun x hx => hp x (by simp [idsOf, hx])) t ht]
      rfl

theorem sortByOrder_eq_self : ∀ l : List Block,
    l.Pairwise (fun a b => a.order < b.order) → sortByOrder l = l := by
  intro l
  induction l with
  | nil => intro _; rfl
  | cons x xs ih =>
    intro hp
    have hx : ∀ b ∈ xs, x.order < b.order := (List.pairwise_cons.mp hp).1
    unfold sortByOrder
    rw [ih (List.pairwise_cons.mp hp).2]
    cases xs with
    | nil => rfl
    | cons y ys =>
      unfold insertByOrder
      rw [if_neg (Nat.not_le.mpr (hx y (List.mem_cons_self _ _)))]

theorem rootRecs_order_lb {pid : Str} {keep : Bool} {now : Nat} :
    ∀ F (p : Option Str) (j : Nat) (b : Block), b ∈ rootRecs pid keep now p j F → j ≤ b.order := by
  intro F
  induction F with
  | nil => intro p j b hb; cases hb
  | cons t ts ih =>
    cases t with
    | node bid c col cs =>
      intro p j b hb
      rcases List.mem_cons.mp hb with rfl | hb
      · exact Nat.le_refl _
      · exact Nat.le_of_succ_le (ih p (j + 1) b hb)

theorem rootRecs_pairwise {pid : Str} {keep : Bool} {now : Nat} :
    ∀ F (p : Option Str) (i : Nat),
      (rootRecs pid keep now p i F).Pairwise (fun a b => a.order < b.order) := by
  intro F
  induction F with
  | nil => intro p i; exact List.Pairwise.nil
  | cons t ts ih =>
    cases t with
    | node bid c col cs =>
      intro p i
      rw [rootRecs]
      refine List.pairwise_cons.mpr ⟨?_, ih p (i + 1)⟩
      intro b hb
      exact Nat.lt_of_succ_le (rootRecs_order_lb ts p (i + 1) b hb)

theorem sortByOrder_rootRecs {pid : Str} {keep : Bool} {now : Nat} (F : List BTree)
    (p : Option Str) (i : Nat) :
    sortByOrder (rootRecs pid keep now p i F) = rootRecs pid keep now p i F :=
  sortByOrder_eq_self _ (rootRecs_pairwise F p i)

theorem heightF_le_sizeF : ∀ F, heightF F ≤ sizeF F := by
  intro F
  induction F using forest_ind with
  | hnil => simp [heightF, sizeF]
  | hcons bid c col cs ts ihcs ihts =>
    simp only [heightF, sizeF]
    exact Nat.max_le.mpr ⟨by omega, by omega⟩

theorem length_forestRecs {pid : Str} {keep : Bool} {now : Nat} :
    ∀ F (p : Option Str) (i : Nat), (forestRecs pid keep now p i F).length = sizeF F := by
  intro F
  induction F using forest_ind with
  | hnil => intro p i; simp [forestRecs, sizeF]
  | hcons bid c col cs ts ihcs ihts =>
    intro p i
    simp only [forestRecs, sizeF, List.length_cons, List.length_append]
    rw [ihcs (some bid) 0, ihts p (i + 1)]
    omega

theorem processBlock_step (global : List Block) (fuel : Nat) (block : Block) (d : Nat)
    (hnl : '\n' ∉ block.content) :
    processBlock global true 2 (fuel + 1) block d =
      serLine d block.content block.id ::
        (if block.collapsed = false then
          ((childrenOf global block.id).map
            (fun c => processBlock global true 2 fuel c (d + 1))).flatten
        else []) := by
  conv_lhs => rw [processBlock]
  rw [splitOnNl_single _ hnl]
  simp only [List.enum, List.enumFrom, List.map_cons, List.map_nil, List.length_cons,
    List.length_nil]
  simp [serLine]

theorem processBlock_forest (global : List Block) (pid : Str) (keep : Bool) (now : Nat) :
    ∀ F, (∀ t ∈ subtrees F,
        childrenOf global t.bid = rootRecs pid keep now (some t.bid) 0 t.kids) →
      (∀ t ∈ subtrees F, HygT t) →
      ∀ (p : Option Str) (i d fuel : Nat), heightF F ≤ fuel →
        ((rootRecs pid keep now p i F).map
          (fun b => processBlock global true 2 fuel b d)).flatten = serForest F d := by
  intro F
  induction F using forest_ind with
  | hnil => intro _ _ p i d fuel _; simp [rootRecs, serForest]
  | hcons bid c col cs ts ihcs ihts =>
    intro hch hyg p i d fuel hfuel
    have hhead : HygT (BTree.node bid c col cs) :=
      hyg _ (by simp [subtrees])
    have hchhead := hch (BTree.node bid c col cs) (by simp [subtrees])
    cases fuel with
    | zero =>
      exfalso
      simp only [heightF] at hfuel
      omega
    | succ f =>
      simp only [rootRecs, List.map_cons, List.flatten_cons]
      rw [processBlock_step global f _ d hhead.1.2]
      have hts : ((rootRecs pid keep now p (i + 1) ts).map
          (fun b => processBlock global true 2 (f + 1) b d)).flatten = serForest ts d := by
        refine ihts (fun t ht => hch t (by simp [subtrees, ht]))
          (fun t ht => hyg t (by simp [subtrees, ht])) p (i + 1) d (f + 1) ?_
        simp only [heightF] at hfuel
        omega
      have hkid : (if (⟨bid, c, p, pid, i, keep && col, now, now⟩ : Block).collapsed = false then
          ((childrenOf global (⟨bid, c, p, pid, i, keep && col, now, now⟩ : Block).id).map
            (fun x => processBlock global true 2 f x (d + 1))).flatten
        else []) = serForest cs (d + 1) := by
        simp only
        by_cases hcol : col = true
        · have hcs : cs = [] := hhead.2.2 hcol
          subst hcs
          cases keep with
          | true =>
            rw [if_neg (by simp [hcol])]
            simp [serForest]
          | false =>
            rw [if_pos (by simp)]
            rw [show childrenOf global bid = rootRecs pid false now (some bid) 0 [] by
              simpa [BTree.bid, BTree.kids] using hchhead]
            simp [rootRecs, serForest]
        · have hcolf : col = false := Bool.not_eq_true _ |>.mp hcol
          subst hcolf
          rw [if_pos (by simp)]
          rw [show childrenOf global bid = rootRecs pid keep now (some bid) 0 cs by
            simpa [BTree.bid, BTree.kids] using hchhead]
          refine ihcs (fun t ht => hch t (by simp [subtrees, ht]))
            (fun t ht => hyg t (by simp [subtrees, ht])) (some bid) 0 (d + 1) f ?_
          simp only [heightF] at hfuel
          omega
      rw [hkid, hts]
      simp [serForest]

theorem blocksToMarkdown_forest (pid : Str) (keep : Bool) (now : Nat) (F : List BTree)
    (hnd : (idsOf F).Nodup) (hyg : HygF F) :
    blocksToMarkdown (forestRecs pid keep now none 0 F) true 2 = joinNl (serForest F 0) := by
  unfold blocksToMarkdown
  congr 1
  have hnone : ∀ x ∈ idsOf F, (none : Option Str) ≠ some x := by intro x _ hc; cases hc
  have hroot : rootBlocksOf (forestRecs pid keep now none 0 F) =
      rootRecs pid keep now none 0 F := by
    unfold rootBlocksOf
    rw [filter_forestRecs_self F none 0 hnone]
    exact sortByOrder_rootRecs F none 0
  have hch : ∀ t ∈ subtrees F,
      childrenOf (forestRecs pid keep now none 0 F) t.bid =
        rootRecs pid keep now (some t.bid) 0 t.kids := by
    intro t ht
    unfold childrenOf
    rw [filter_forestRecs_child F none 0 hnd hnone t ht]
    exact sortByOrder_rootRecs _ _ _
  rw [hroot]
  refine processBlock_forest _ pid keep now F hch hyg none 0 0 _ ?_
  rw [length_forestRecs F none 0]
  have := heightF_le_sizeF F
  omega

-- ==================== C1: parsing the serialized lines ====================

/-- One marker line of known (depth, content, id) as `flushCurrentBlock`
processes it: compute the parent from the stack, the order as the count of
existing siblings, append the block, pop-and-push the stack. -/
def pstep (pid : Str) (now : Nat) (acc : List Block × List (Block × Nat))
    (e : Nat × Str × Str) : List Block × List (Block × Nat) :=
  let parentId := findParent acc.2 e.1
  let order := (acc.1.filter (fun b => b.parentId = parentId)).length
  let block : Block := ⟨e.2.2, e.2.1, parentId, pid, order, false, now, now⟩
  (acc.1 ++ [block], (block, e.1) :: acc.2.dropWhile (fun s => e.1 ≤ s.2))

theorem flush_on_pending (pid : Str) (gen : Nat → Str) (now : Nat) (B : List Block)
    (S : List (Block × Nat)) (ctr d : Nat) (c i : Str) (hc : ContentOk c) (hi : IdOk i) :
    flushCurrentBlock pid gen now ⟨B, S, [c ++ ' ' :: '^' :: i], d, ctr⟩ =
      ⟨(pstep pid now (B, S) (d, c, i)).1, (pstep pid now (B, S) (d, c, i)).2, [], d, ctr⟩ := by
  obtain ⟨hne, hext⟩ := flush_extract c i hc hi
  unfold flushCurrentBlock
  rw [if_neg (by simp)]
  dsimp only
  rw [show joinNl [c ++ ' ' :: '^' :: i] = c ++ ' ' :: '^' :: i from rfl]
  rw [if_neg hne, hext]
  rfl

theorem parseLine_on_marker (pid : Str) (gen : Nat → Str) (now : Nat) (st : PState)
    (d : Nat) (c i : Str) :
    parseLine pid gen now st (serLine d c i) =
      { flushCurrentBlock pid gen now st with
          curDepth := d, curLines := [c ++ ' ' :: '^' :: i] } := by
  unfold parseLine
  rw [if_neg (jsTrim_serLine_ne_nil d c i)]
  rw [lineMarker_serLine d c i]
  dsimp only
  rw [show d * 2 / 2 = d from by omega]

theorem foldl_parseLine_markers (pid : Str) (gen : Nat → Str) (now : Nat) :
    ∀ (sp : List (Nat × Str × Str)) (B : List Block) (S : List (Block × Nat)) (ctr d : Nat)
      (c i : Str), ContentOk c → IdOk i → (∀ e ∈ sp, ContentOk e.2.1 ∧ IdOk e.2.2) →
      (flushCurrentBlock pid gen now
        ((linesFor sp).foldl (parseLine pid gen now) ⟨B, S, [c ++ ' ' :: '^' :: i], d, ctr⟩)).blocks
      = (sp.foldl (pstep pid now) (pstep pid now (B, S) (d, c, i))).1 := by
  intro sp
  induction sp with
  | nil =>
    intro B S ctr d c i hc hi _
    rw [show linesFor [] = [] from rfl, List.foldl_nil, List.foldl_nil]
    rw [flush_on_pending pid gen now B S ctr d c i hc hi]
  | cons e sp ih =>
    intro B S ctr d c i hc hi hall
    have he := hall e (List.mem_cons_self _ _)
    rw [show linesFor (e :: sp) = serLine e.1 e.2.1 e.2.2 :: linesFor sp from rfl,
      List.foldl_cons]
    rw [parseLine_on_marker pid gen now _ e.1 e.2.1 e.2.2]
    rw [flush_on_pending pid gen now B S ctr d c i hc hi]
    have hstate : ({ (⟨(pstep pid now (B, S) (d, c, i)).1, (pstep pid now (B, S) (d, c, i)).2,
        [], d, ctr⟩ : PState) with
          curDepth := e.1, curLines := [e.2.1 ++ ' ' :: '^' :: e.2.2] } : PState) =
        ⟨(pstep pid now (B, S) (d, c, i)).1, (pstep pid now (B, S) (d, c, i)).2,
          [e.2.1 ++ ' ' :: '^' :: e.2.2], e.1, ctr⟩ := rfl
    rw [hstate]
    rw [ih (pstep pid now (B, S) (d, c, i)).1 (pstep pid now (B, S) (d, c, i)).2 ctr e.1
      e.2.1 e.2.2 he.1 he.2 (fun x hx => hall x (List.mem_cons_of_mem _ hx))]
    rfl

theorem parseBlocks_linesFor (pid : Str) (gen : Nat → Str) (now : Nat)
    (sp : List (Nat × Str × Str)) (hne : sp ≠ [])
    (hall : ∀ e ∈ sp, ContentOk e.2.1 ∧ IdOk e.2.2) :
    parseBlocks (joinNl (linesFor sp)) pid gen now =
      (sp.foldl (pstep pid now) ([], [])).1 := by
  cases sp with
  | nil => exact absurd rfl hne
  | cons e sp =>
    unfold parseBlocks
    dsimp only
    rw [splitOnNl_joinNl (linesFor (e :: sp))
      (by
        intro l hl
        simp only [linesFor, List.mem_map] at hl
        obtain ⟨x, hx, rfl⟩ := hl
        exact nl_not_mem_serLine x.1 x.2.1 x.2.2 (hall x hx).1 (hall x hx).2)
      (by simp [linesFor])]
    rw [show linesFor (e :: sp) = serLine e.1 e.2.1 e.2.2 :: linesFor sp from rfl,
      List.foldl_cons]
    rw [parseLine_on_marker pid gen now _ e.1 e.2.1 e.2.2]
    rw [show flushCurrentBlock pid gen now ⟨[], [], [], 0, 0⟩ = ⟨[], [], [], 0, 0⟩ from rfl]
    have he := hall e (List.mem_cons_self _ _)
    have := foldl_parseLine_markers pid gen now sp [] [] 0 e.1 e.2.1 e.2.2 he.1 he.2
      (fun x hx => hall x (List.mem_cons_of_mem _ hx))
    have hstate : ({ (⟨[], [], [], 0, 0⟩ : PState) with
        curDepth := e.1, curLines := [e.2.1 ++ ' ' :: '^' :: e.2.2] } : PState) =
        ⟨[], [], [e.2.1 ++ ' ' :: '^' :: e.2.2], e.1, 0⟩ := rfl
    rw [hstate]
    rw [this, List.foldl_cons]

-- ==================== C1: the stack reconstruction ====================

/-- Ids and depths of a parser stack. -/
def shape (S : List (Block × Nat)) : List (Str × Nat) := S.map (fun e => (e.1.id, e.2))

/-- `findParent` seen through the shape. -/
def findParentSh (sh : List (Str × Nat)) (d : Nat) : Option Str :=
  (sh.find? (fun e => e.2 < d)).map (fun e => e.1)

theorem findParent_shape (S : List (Block × Nat)) (d : Nat) :
    findParent S d = findParentSh (shape S) d := by
  induction S with
  | nil => rfl
  | cons e S ih =>
    unfold findParent findParentSh shape at ih ⊢
    simp only [List.map_cons, List.find?_cons]
    cases h : decide (e.2 < d) with
    | true => rfl
    | false => exact ih

theorem shape_dropWhile (S : List (Block × Nat)) (d : Nat) :
    shape (S.dropWhile (fun s => d ≤ s.2)) = (shape S).dropWhile (fun s => d ≤ s.2) := by
  induction S with
  | nil => rfl
  | cons e S ih =>
    unfold shape at ih ⊢
    simp only [List.map_cons, List.dropWhile_cons]
    cases h : decide (d ≤ e.2) with
    | true => simpa using ih
    | false => simp

theorem dropWhile_dropWhile_imp {α : Type} {p q : α → Bool}
    (himp : ∀ x, q x = true → p x = true) (l : List α) :
    (l.dropWhile q).dropWhile p = l.dropWhile p := by
  induction l with
  | nil => rfl
  | cons x t ih =>
    cases hq : q x with
    | true =>
      simp only [List.dropWhile_cons, hq, if_true, himp x hq]
      exact ih
    | false =>
      simp [List.dropWhile_cons, hq]

theorem find?_dropWhile_imp {α : Type} {p q : α → Bool}
    (hpq : ∀ x, q x = true → p x = false) (l : List α) :
    (l.dropWhile q).find? p = l.find? p := by
  induction l with
  | nil => rfl
  | cons x t ih =>
    cases hq : q x with
    | true =>
      rw [List.dropWhile_cons, if_pos hq, List.find?_cons, hpq x hq]
      exact ih
    | false =>
      rw [List.dropWhile_cons, if_neg (by simp [hq])]

/-- The stack shape left behind by parsing the serialized lines of a forest
at a base depth. -/
def shapeAfter : List BTree → Nat → List (Str × Nat) → List (Str × Nat)
  | [], _, sh => sh
  | BTree.node bid _ _ cs :: ts, d, sh =>
    shapeAfter ts d (shapeAfter cs (d + 1) ((bid, d) :: sh.dropWhile (fun e => d ≤ e.2)))

theorem shapeAfter_deep (d' : Nat) :
    ∀ F (d : Nat) (sh : List (Str × Nat)), d' ≤ d →
      (shapeAfter F d sh).dropWhile (fun e => d' ≤ e.2) = sh.dropWhile (fun e => d' ≤ e.2) ∧
      findParentSh (shapeAfter F d sh) d' = findParentSh sh d' := by
  intro F
  induction F using forest_ind with
  | hnil => intro d sh _; exact ⟨by rw [shapeAfter], by rw [shapeAfter]⟩
  | hcons bid c col cs ts ihcs ihts =>
    intro d sh hd
    have h1 := ihts d (shapeAfter cs (d + 1) ((bid, d) :: sh.dropWhile (fun e => d ≤ e.2))) hd
    have h2 := ihcs (d + 1) ((bid, d) :: sh.dropWhile (fun e => d ≤ e.2)) (Nat.le_succ_of_le hd)
    have h3 : ((bid, d) :: sh.dropWhile (fun e => d ≤ e.2)).dropWhile (fun e => d' ≤ e.2) =
        sh.dropWhile (fun e => d' ≤ e.2) := by
      rw [List.dropWhile_cons, if_pos (by simpa using hd)]
      exact dropWhile_dropWhile_imp
        (fun x hx => by
          simp only [decide_eq_true_eq] at hx ⊢
          omega) sh
    have h4 : findParentSh ((bid, d) :: sh.dropWhile (fun e => d ≤ e.2)) d' =
        findParentSh sh d' := by
      unfold findParentSh
      rw [List.find?_cons, show (decide ((bid, d).2 < d')) = false by
        simp only [decide_eq_false_iff_not]
        omega]
      rw [find?_dropWhile_imp (fun x hx => by
        simp only [decide_eq_true_eq] at hx
        simp only [decide_eq_false_iff_not]
        omega) sh]
    rw [shapeAfter]
    exact ⟨by rw [h1.1, h2.1, h3], by rw [h1.2, h2.2, h4]⟩

/-- Ids of a blocks table. -/
def blockIds (B : List Block) : List Str := B.map (fun b => b.id)

theorem blockIds_append (B C : List Block) : blockIds (B ++ C) = blockIds B ++ blockIds C :=
  List.map_append _ _ _

theorem blockIds_forestRecs {pid : Str} {keep : Bool} {now : Nat} :
    ∀ F (p : Option Str) (i : Nat), blockIds (forestRecs pid keep now p i F) = idsOf F := by
  intro F
  induction F using forest_ind with
  | hnil => intro p i; simp [forestRecs, idsOf, blockIds]
  | hcons bid c col cs ts ihcs ihts =>
    intro p i
    simp only [forestRecs, idsOf, blockIds, List.map_cons, List.map_append]
    rw [show List.map (fun b => b.id) (forestRecs pid keep now (some bid) 0 cs)
        = blockIds (forestRecs pid keep now (some bid) 0 cs) from rfl,
      show List.map (fun b => b.id) (forestRecs pid keep now p (i + 1) ts)
        = blockIds (forestRecs pid keep now p (i + 1) ts) from rfl,
      ihcs (some bid) 0, ihts p (i + 1)]

theorem findParentSh_mem {sh : List (Str × Nat)} {d : Nat} {q : Str}
    (h : findParentSh sh d = some q) : ∃ e ∈ sh, e.1 = q := by
  unfold findParentSh at h
  cases hf : sh.find? (fun e => e.2 < d) with
  | none => rw [hf] at h; cases h
  | some e =>
    rw [hf] at h
    exact ⟨e, List.mem_of_find?_eq_some hf, Option.some.inj h⟩

theorem parentsWF_extend (B : List Block) (hwf : ParentsWF B) {pid : Str} {keep : Bool}
    {now : Nat} (p : Option Str) (n : Nat) (F : List BTree)
    (hp : p = none ∨ ∃ q, p = some q ∧ q ∈ blockIds B) :
    ParentsWF (B ++ forestRecs pid keep now p n F) := by
  intro b hb
  rcases List.mem_append.mp hb with hb | hb
  · exact parentsWF_append_right hwf _ b hb
  · obtain ⟨hpar, _⟩ := mem_forestRecs F p n b hb
    rcases hpar with h | ⟨x, hx, he⟩
    · rcases hp with hp | ⟨q, hq, hqm⟩
      · exact Or.inl (h.trans hp)
      · obtain ⟨b2, hb2, hid⟩ := List.mem_map.mp hqm
        exact Or.inr ⟨b2, List.mem_append_left _ hb2, by rw [h, hq, hid]⟩
    · have : x ∈ blockIds (forestRecs pid keep now p n F) := by
        rw [blockIds_forestRecs F p n]; exact hx
      obtain ⟨b2, hb2, hid⟩ := List.mem_map.mp this
      exact Or.inr ⟨b2, List.mem_append_right _ hb2, by rw [he, hid]⟩

theorem count_eq_zero_of_fresh (B : List Block) (hwf : ParentsWF B) (bid : Str)
    (hfresh : bid ∉ blockIds B) :
    (B.filter (fun b => b.parentId = some bid)).length = 0 := by
  rw [List.length_eq_zero, List.filter_eq_nil_iff]
  intro b hb
  simp only [decide_eq_true_eq]
  rcases hwf b hb with h | ⟨b2, hb2, he⟩
  · rw [h]; exact fun hc => by cases hc
  · rw [he]
    intro hc
    exact hfresh (Option.some.inj hc ▸ List.mem_map.mpr ⟨b2, hb2, rfl⟩)

theorem shape_cons (b : Block) (k : Nat) (S : List (Block × Nat)) :
    shape ((b, k) :: S) = (b.id, k) :: shape S := rfl

theorem filter_parent_fresh (B : List Block) (hwf : ParentsWF B) (bid : Str)
    (hfresh : bid ∉ blockIds B) :
    B.filter (fun b => b.parentId = some bid) = [] := by
  rw [List.filter_eq_nil_iff]
  intro b hb
  simp only [decide_eq_true_eq]
  rcases hwf b hb with h | ⟨b2, hb2, he⟩
  · rw [h]; exact fun hc => by cases hc
  · rw [he]
    intro hc
    exact hfresh (Option.some.inj hc ▸ List.mem_map.mpr ⟨b2, hb2, rfl⟩)

theorem foldl_pstep_forest (pid : Str) (now : Nat) :
    ∀ F (B : List Block) (S : List (Block × Nat)) (d : Nat),
      (idsOf F).Nodup →
      (∀ x ∈ idsOf F, x ∉ blockIds B) →
      ParentsWF B →
      (∀ e ∈ shape S, e.1 ∈ blockIds B) →
      ∃ S2,
        (serSpec F d).foldl (pstep pid now) (B, S) =
          (B ++ forestRecs pid false now (findParentSh (shape S) d)
            ((B.filter (fun b => b.parentId = findParentSh (shape S) d)).length) F, S2) ∧
        shape S2 = shapeAfter F d (shape S) ∧
        (∀ e ∈ shape S2, e.1 ∈ blockIds (B ++ forestRecs pid false now (findParentSh (shape S) d)
            ((B.filter (fun b => b.parentId = findParentSh (shape S) d)).length) F)) := by
  intro F
  induction F using forest_ind with
  | hnil =>
    intro B S d _ _ _ hsin
    refine ⟨S, ?_, ?_, ?_⟩
    · simp [serSpec, forestRecs]
    · rw [shapeAfter]
    · intro e he
      simp only [forestRecs, List.append_nil]
      exact hsin e he
  | hcons bid c col cs ts ihcs ihts =>
    intro B S d hnd hfresh hwf hsin
    have hbid : bid ∉ idsOf cs ++ idsOf ts := (List.nodup_cons.mp (by simpa [idsOf] using hnd)).1
    have hnd2 : (idsOf cs ++ idsOf ts).Nodup := (List.nodup_cons.mp (by simpa [idsOf] using hnd)).2
    obtain ⟨hndcs, hndts, hdisj⟩ := List.nodup_append.mp hnd2
    have hbidcs : bid ∉ idsOf cs := fun hx => hbid (List.mem_append_left _ hx)
    have hbidts : bid ∉ idsOf ts := fun hx => hbid (List.mem_append_right _ hx)
    have hbfresh : bid ∉ blockIds B := hfresh bid (by simp [idsOf])
    set p := findParentSh (shape S) d with hpdef
    set n := (B.filter (fun b => b.parentId = p)).length with hndef
    have hpmem : p = none ∨ ∃ q, p = some q ∧ q ∈ blockIds B := by
      cases hf : p with
      | none => exact Or.inl rfl
      | some q =>
        rw [hpdef] at hf
        obtain ⟨e, hes, heq⟩ := findParentSh_mem hf
        exact Or.inr ⟨q, rfl, heq ▸ hsin e hes⟩
    set blk : Block := ⟨bid, c, p, pid, n, false, now, now⟩ with hblkdef
    have hstep : pstep pid now (B, S) (d, c, bid)
        = (B ++ [blk], (blk, d) :: S.dropWhile (fun s => d ≤ s.2)) := by
      unfold pstep
      dsimp only
      rw [findParent_shape, ← hpdef, ← hndef, ← hblkdef]
    rw [serSpec]
    rw [List.foldl_cons, hstep, List.foldl_append]
    have hshapeS1 : shape ((blk, d) :: S.dropWhile (fun s => d ≤ s.2))
        = (bid, d) :: (shape S).dropWhile (fun s => d ≤ s.2) := by
      rw [shape_cons, shape_dropWhile, hblkdef]
    have hids1 : blockIds (B ++ [blk]) = blockIds B ++ [bid] := by
      rw [blockIds_append, hblkdef]
      rfl
    have hp1 : findParentSh (shape ((blk, d) :: S.dropWhile (fun s => d ≤ s.2))) (d + 1)
        = some bid := by
      rw [hshapeS1]
      unfold findParentSh
      rw [List.find?_cons_of_pos _ (by simp)]
      rfl
    have hwf1 : ParentsWF (B ++ [blk]) := by
      intro b hb
      rcases List.mem_append.mp hb with hb | hb
      · exact parentsWF_append_right hwf _ b hb
      · rcases List.mem_singleton.mp hb with rfl
        rw [hblkdef]
        simp only
        rcases hpmem with hp0 | ⟨q, hq, hqm⟩
        · exact Or.inl hp0
        · obtain ⟨b2, hb2, hid⟩ := List.mem_map.mp hqm
          exact Or.inr ⟨b2, List.mem_append_left _ hb2, by rw [hq, hid]⟩
    have hpne : p ≠ some bid := by
      rcases hpmem with hp0 | ⟨q, hq, hqm⟩
      · rw [hp0]; exact fun hc => by cases hc
      · rw [hq]
        intro hc
        exact hbfresh (Option.some.inj hc ▸ hqm)
    have hn1 : ((B ++ [blk]).filter (fun b => b.parentId = some bid)).length = 0 := by
      rw [List.filter_append, filter_parent_fresh B hwf bid hbfresh]
      rw [show [blk].filter (fun b => b.parentId = some bid) = [] by
        rw [hblkdef]
        simp only [List.filter_cons, List.filter_nil]
        rw [if_neg (by simpa using hpne)]]
      rfl
    have hfreshcs : ∀ x ∈ idsOf cs, x ∉ blockIds (B ++ [blk]) := by
      intro x hx
      rw [hids1]
      intro hc
      rcases List.mem_append.mp hc with hc | hc
      · exact hfresh x (by simp [idsOf, hx]) hc
      · exact hbidcs (List.mem_singleton.mp hc ▸ hx)
    have hsin1 : ∀ e ∈ shape ((blk, d) :: S.dropWhile (fun s => d ≤ s.2)),
        e.1 ∈ blockIds (B ++ [blk]) := by
      intro e he
      rw [hshapeS1] at he
      rw [hids1]
      rcases List.mem_cons.mp he with rfl | he
      · exact List.mem_append_right _ (by simp)
      · have he2 : e ∈ shape S := (List.dropWhile_sublist _).subset he
        exact List.mem_append_left _ (hsin e he2)
    obtain ⟨S2, hfold1, hshape2, hsin2⟩ :=
      ihcs (B ++ [blk]) ((blk, d) :: S.dropWhile (fun s => d ≤ s.2)) (d + 1)
        hndcs hfreshcs hwf1 hsin1
    rw [hp1, hn1] at hfold1 hsin2
    rw [hfold1]
    rw [hshapeS1] at hshape2
    have hids2 : blockIds ((B ++ [blk]) ++ forestRecs pid false now (some bid) 0 cs)
        = (blockIds B ++ [bid]) ++ idsOf cs := by
      rw [blockIds_append, hids1, blockIds_forestRecs cs (some bid) 0]
    have hp2 : findParentSh (shape S2) d = p := by
      rw [hshape2]
      rw [(shapeAfter_deep d cs (d + 1) _ (Nat.le_succ d)).2]
      unfold findParentSh
      rw [List.find?_cons, show decide (((bid, d)).2 < d) = false by simp]
      rw [find?_dropWhile_imp (fun x hx => by
        simp only [decide_eq_true_eq] at hx
        simp only [decide_eq_false_iff_not]
        omega) (shape S)]
      exact hpdef.symm
    have hfilterrecs : (forestRecs pid false now (some bid) 0 cs).filter
        (fun b => b.parentId = p) = [] := by
      apply filter_forestRecs_ext cs (some bid) p 0 hpne
      intro x hx hc
      rcases hpmem with hp0 | ⟨q, hq, hqm⟩
      · rw [hp0] at hc; cases hc
      · rw [hq] at hc
        exact hfresh x (by simp [idsOf, hx]) (Option.some.inj hc ▸ hqm)
    have hcount2 : (((B ++ [blk]) ++ forestRecs pid false now (some bid) 0 cs).filter
        (fun b => b.parentId = p)).length = n + 1 := by
      rw [List.filter_append, List.filter_append, hfilterrecs, List.append_nil,
        List.length_append]
      rw [show [blk].filter (fun b => b.parentId = p) = [blk] by
        rw [hblkdef]
        simp only [List.filter_cons, List.filter_nil]
        rw [if_pos (by simp)]]
      rw [← hndef]
      simp
    have hwf2 : ParentsWF ((B ++ [blk]) ++ forestRecs pid false now (some bid) 0 cs) := by
      refine parentsWF_extend _ hwf1 (some bid) 0 cs (Or.inr ⟨bid, rfl, ?_⟩)
      rw [hids1]
      exact List.mem_append_right _ (by simp)
    have hfreshts : ∀ x ∈ idsOf ts,
        x ∉ blockIds ((B ++ [blk]) ++ forestRecs pid false now (some bid) 0 cs) := by
      intro x hx
      rw [hids2]
      intro hc
      rcases List.mem_append.mp hc with hc | hc
      · rcases List.mem_append.mp hc with hc | hc
        · exact hfresh x (by simp [idsOf, hx]) hc
        · exact hbidts (List.mem_singleton.mp hc ▸ hx)
      · exact hdisj hc hx
    obtain ⟨S3, hfold2, hshape3, hsin3⟩ := ihts
      ((B ++ [blk]) ++ forestRecs pid false now (some bid) 0 cs) S2 d hndts hfreshts hwf2 hsin2
    rw [hp2, hcount2] at hfold2 hsin3
    rw [hfold2]
    have hblocks : ((B ++ [blk]) ++ forestRecs pid false now (some bid) 0 cs)
          ++ forestRecs pid false now p (n + 1) ts
        = B ++ forestRecs pid false now p n (BTree.node bid c col cs :: ts) := by
      rw [hblkdef]
      simp [forestRecs, List.append_assoc]
    refine ⟨S3, ?_, ?_, ?_⟩
    · rw [hblocks]
    · rw [hshape3, hshape2]
      conv_rhs => rw [shapeAfter]
    · intro e he
      rw [← hblocks]
      exact hsin3 e he

-- ==================== C1: assembly ====================

theorem serSpec_hyg : ∀ F, HygF F → ∀ (d : Nat), ∀ e ∈ serSpec F d,
    ContentOk e.2.1 ∧ IdOk e.2.2 := by
  intro F
  induction F using forest_ind with
  | hnil => intro _ d e he; rw [serSpec] at he; cases he
  | hcons bid c col cs ts ihcs ihts =>
    intro hyg d e he
    rw [serSpec] at he
    have hhead : HygT (BTree.node bid c col cs) := hyg _ (by simp [subtrees])
    rcases List.mem_cons.mp he with rfl | he
    · exact ⟨hhead.1, hhead.2.1⟩
    · rcases List.mem_append.mp he with he | he
      · exact ihcs (fun t ht => hyg t (by simp [subtrees, ht])) (d + 1) e he
      · exact ihts (fun t ht => hyg t (by simp [subtrees, ht])) d e he

theorem parseBlocks_forest (pid : Str) (gen : Nat → Str) (now : Nat) (F : List BTree)
    (hnd : (idsOf F).Nodup) (hyg : HygF F) :
    parseBlocks (joinNl (serForest F 0)) pid gen now = forestRecs pid false now none 0 F := by
  cases F with
  | nil =>
    rw [show serForest [] 0 = [] by rw [serForest]]
    rw [show forestRecs pid false now none 0 ([] : List BTree) = [] by rw [forestRecs]]
    rfl
  | cons t ts =>
    rw [serForest_eq_linesFor]
    rw [parseBlocks_linesFor pid gen now (serSpec (t :: ts) 0)
      (by cases t with | node bid c col cs => rw [serSpec]; exact List.cons_ne_nil _ _)
      (serSpec_hyg (t :: ts) hyg 0)]
    obtain ⟨S2, hfold, _, _⟩ := foldl_pstep_forest pid now (t :: ts) [] [] 0 hnd
      (by intro x _ hc; cases hc)
      (by intro b hb; cases hb)
      (by intro e he; cases he)
    rw [hfold]
    rfl

theorem forestRecs_erase (pid : Str) (keep : Bool) (now0 now1 : Nat) :
    ∀ F (p : Option Str) (i : Nat),
      forestRecs pid false now1 p i F = (forestRecs pid keep now0 p i F).map
        (fun b => { b with collapsed := false, createdAt := now1, updatedAt := now1 }) := by
  intro F
  induction F using forest_ind with
  | hnil => intro p i; rw [forestRecs, forestRecs]; rfl
  | hcons bid c col cs ts ihcs ihts =>
    intro p i
    rw [forestRecs, forestRecs]
    simp only [List.map_cons, List.map_append]
    rw [← ihcs (some bid) 0, ← ihts p (i + 1)]
    rfl

/-- Claim C1 (amended): the serialize-then-parse round trip holds for every
block-forest store in which no collapsed block has children (the
counterexample shows a collapsed parent loses its descendants), every
content is trim-stable and single-line, and block ids are non-empty
id-marker tokens, pairwise distinct.  Parsing the text produced by
`blocksToMarkdown` (block-id markers on, indent unit 2, the defaults of
`pageToMarkdown`) reproduces exactly the same records — same ids, same
contents, same parents, same sibling orders — with only the collapse flags
reset and the timestamps renewed, which the claim allows. -/
theorem c1_roundtrip_amended (F : List BTree) (pid : Str) (gen : Nat → Str) (now0 now1 : Nat)
    (hhyg : HygF F) (hnd : (idsOf F).Nodup) :
    parseBlocks (blocksToMarkdown (forestRecs pid true now0 none 0 F) true 2) pid gen now1 =
      (forestRecs pid true now0 none 0 F).map
        (fun b => { b with collapsed := false, createdAt := now1, updatedAt := now1 }) := by
  rw [blocksToMarkdown_forest pid true now0 F hnd hhyg]
  rw [parseBlocks_forest pid gen now1 F hnd hhyg]
  exact forestRecs_erase pid true now0 now1 F none 0

/-- The concrete forest of the C1 witness: a root with one child, and a
second, collapsed, childless root. -/
def c1F : List BTree :=
  [BTree.node (("a").toList) (("hello").toList) false
      [BTree.node (("b").toList) (("world").toList) false []],
   BTree.node (("c").toList) (("x").toList) true []]

theorem c1F_hyg : HygF c1F := by
  intro t ht
  have hs : subtrees c1F =
      [BTree.node (("a").toList) (("hello").toList) false
          [BTree.node (("b").toList) (("world").toList) false []],
        BTree.node (("b").toList) (("world").toList) false [],
        BTree.node (("c").toList) (("x").toList) true []] := by
    simp [c1F, subtrees]
  rw [hs] at ht
  rcases List.mem_cons.mp ht with rfl | ht
  · exact ⟨⟨by decide, by decide⟩, ⟨by decide, by decide⟩, fun h => nomatch h⟩
  · rcases List.mem_cons.mp ht with rfl | ht
    · exact ⟨⟨by decide, by decide⟩, ⟨by decide, by decide⟩, fun h => nomatch h⟩
    · rcases List.mem_cons.mp ht with rfl | ht
      · exact ⟨⟨by decide, by decide⟩, ⟨by decide, by decide⟩, fun _ => rfl⟩
      · cases ht

theorem c1F_nodup : (idsOf c1F).Nodup := by
  have h : idsOf c1F = [("a").toList, ("b").toList, ("c").toList] := by
    simp [c1F, idsOf]
  rw [h]
  decide

/-- Witness for C1's amended theorem: the concrete two-root forest round
trips. -/
theorem c1_witness :
    parseBlocks (blocksToMarkdown (forestRecs (("P").toList) true 5 none 0 c1F) true 2)
        (("P").toList) genU 9 =
      (forestRecs (("P").toList) true 5 none 0 c1F).map
        (fun b => { b with collapsed := false, createdAt := 9, updatedAt := 9 }) :=
  c1_roundtrip_amended c1F (("P").toList) genU 5 9 c1F_hyg c1F_nodup

end OutlineNotes
